import Mathlib

/-!
A verification development for the multi-strategy XML search engine
(`src/models/search_models.py`, `src/parsers/{base,sax,dom,elementtree}_parser.py`).

The Python sources are shallowly embedded:
* XML documents are modelled as the tree `XNode` (element nodes with a tag,
  an ordered attribute list and a child list, and text nodes).  The SAX
  strategy consumes the event stream `nodeEvents` derived from the tree in
  document order; the DOM and ElementTree strategies recurse over the tree
  directly, mirroring `_search_elements` of each parser.
* Python strings are Lean `String`s; `str.lower` is `pyLower` (per-char
  ASCII lowering, which is what both `String.toLower` and `str.lower` do on
  the ASCII range), `str.strip()` is `pyStrip`, the `in` substring test is
  `strIn`, `"/".join` is `sjoin`, and `dict` lookup on the attribute list is
  `dictGet`.
* The filesystem seen by `IXMLParser.validate_file` is a map from path
  strings to `PathState` (missing / not-a-regular-file / regular file whose
  XML parse either succeeds with a tree or fails with a message).  Python
  exceptions are the inductive `XmlError`, keeping the exception class and
  the exact message formatted by the source.
* Wall-clock readings are an explicit pair of `Nat` millisecond timestamps
  passed to `parse`, so that timing is visible but plays no role in results.
* `ParsedElement.children` is omitted: every strategy constructs
  `ParsedElement` without children, so the field is constantly `[]`.
-/

namespace XmlParser

/-! ### String primitives modelling the Python `str` operations used -/

/-- Model of Python `str.lower` (ASCII case folding, as used by the code). -/
def pyLower (s : String) : String := String.mk (s.data.map Char.toLower)

/-- Drop leading whitespace characters from a character list. -/
def dropWs : List Char → List Char
  | [] => []
  | c :: rest => if c.isWhitespace then dropWs rest else c :: rest

/-- Model of Python `str.strip()`: remove leading and trailing whitespace. -/
def pyStrip (s : String) : String :=
  String.mk (dropWs ((dropWs s.data.reverse).reverse))

/-- `leadMatch n h` is true when the list `n` is an initial segment of `h`. -/
def leadMatch : List Char → List Char → Bool
  | [], _ => true
  | _ :: _, [] => false
  | a :: as, b :: bs => a == b && leadMatch as bs

/-- `subIn n h` is true when `n` occurs contiguously inside `h`. -/
def subIn : List Char → List Char → Bool
  | n, [] => n.isEmpty
  | n, b :: bs => leadMatch n (b :: bs) || subIn n bs

/-- Model of the Python substring test `needle in hay`. -/
def strIn (needle hay : String) : Bool := subIn needle.data hay.data

/-- Model of the Python prefix test `hay.startswith(p)`. -/
def strPref (p hay : String) : Bool := leadMatch p.data hay.data

/-- Model of Python `"/".join(parts)`. -/
def sjoin : List String → String
  | [] => ""
  | [s] => s
  | s :: rest => s ++ "/" ++ sjoin rest

/-- Lookup in an attribute mapping, as Python `dict.get` / `dict[...]`.
XML forbids duplicate attribute names on one element, so first-match lookup
agrees with Python's `dict` built from the parser's attribute list. -/
def dictGet (attrs : List (String × String)) (key : String) : Option String :=
  match attrs with
  | [] => none
  | (k, v) :: rest => if k == key then some v else dictGet rest key

/-! ### The query/result data model (`src/models/search_models.py`) -/

/-- `SearchQuery` of `search_models.py`: the immutable filter spec. -/
structure SearchQuery where
  element_name : String
  attribute_name : Option String := none
  attribute_value : Option String := none
  text_contains : Option String := none
  deriving DecidableEq

/-- `SearchQuery.matches_element`:
`self.element_name.lower() == element_name.lower()`. -/
def SearchQuery.matches_element (q : SearchQuery) (element_name : String) : Bool :=
  pyLower q.element_name == pyLower element_name

/-- `SearchQuery.matches_attribute`.  Python's `not x` is true both for
`None` and for the empty string, hence the `isEmpty` tests. -/
def SearchQuery.matches_attribute (q : SearchQuery)
    (attributes : List (String × String)) : Bool :=
  match q.attribute_name, q.attribute_value with
  | some n, some v =>
      if n.isEmpty || v.isEmpty then true
      else dictGet attributes n == some v
  | _, _ => true

/-- `SearchQuery.matches_text`:
vacuous for `None`/empty, otherwise a case-folded substring test. -/
def SearchQuery.matches_text (q : SearchQuery) (text : String) : Bool :=
  match q.text_contains with
  | none => true
  | some t => if t.isEmpty then true else strIn (pyLower t) (pyLower text)

/-- `ParsedElement` of `search_models.py` (the `children` field is omitted:
no strategy ever populates it). -/
structure ParsedElement where
  tag : String
  attributes : List (String × String) := []
  text : String := ""
  path : String := ""
  deriving DecidableEq

/-- `SearchResult` of `search_models.py`. -/
structure SearchResult where
  query : SearchQuery
  elements : List ParsedElement := []
  parser_type : String := ""
  execution_time_ms : Nat := 0
  deriving DecidableEq

/-! ### XML documents -/

/-- In-memory XML node: an element (tag, attributes in document order,
children in document order) or a text node.  This is the tree minidom and
ElementTree materialise, and the tree whose document-order event stream the
SAX parser delivers. -/
inductive XNode where
  | elem (tag : String) (attributes : List (String × String)) (children : List XNode)
  | text (data : String)

/-- Concatenation of the data of all immediate text-node children, used by
`DOMParserStrategy._get_element_text` before stripping. -/
def catText : List XNode → String
  | [] => ""
  | XNode.text d :: rest => d ++ catText rest
  | XNode.elem _ _ _ :: rest => catText rest

/-- True when a child list consists of text nodes only (no child elements). -/
def allText : List XNode → Bool
  | [] => true
  | XNode.text _ :: rest => allText rest
  | XNode.elem _ _ _ :: _ => false

/-! ### DOM strategy search (`dom_parser.py`, `_search_elements`) -/

mutual

/-- `DOMParserStrategy._search_elements`: pre-order tree walk; at each
element node, extend the inherited path, test the three filters in order
(element name, attribute, text on the stripped direct text) and emit a
`ParsedElement` on full match, then recurse into the child elements.
The accumulator list of the source is returned instead of mutated. -/
def domSearch (q : SearchQuery) (node : XNode) (path : List String) :
    List ParsedElement :=
  match node with
  | XNode.text _ => []
  | XNode.elem tag attrs children =>
      let current_path := path ++ [tag]
      let hit : List ParsedElement :=
        if q.matches_element tag then
          if q.matches_attribute attrs then
            let text := pyStrip (catText children)
            if q.matches_text text then
              [{ tag := tag, attributes := attrs, text := text,
                 path := sjoin current_path }]
            else []
          else []
        else []
      hit ++ domSearchF q children current_path

/-- The `for child in node.childNodes` loop of `_search_elements` (text
children contribute nothing, exactly as the `ELEMENT_NODE` guard). -/
def domSearchF (q : SearchQuery) (nodes : List XNode) (path : List String) :
    List ParsedElement :=
  match nodes with
  | [] => []
  | c :: rest => domSearch q c path ++ domSearchF q rest path

end

/-! ### ElementTree strategy search (`elementtree_parser.py`) -/

/-- The right brace character, written without a brace literal. -/
def rbrace : Char := Char.ofNat 125

/-- Suffix of a character list after its first right brace. -/
def afterBrace : List Char → List Char
  | [] => []
  | c :: rest => if c == rbrace then rest else afterBrace rest

/-- `ElementTreeParserStrategy._remove_namespace`: reduce a Clark-notation
tag to its local name (`tag.split(sep, 1)[1]` after the first brace). -/
def remove_namespace (tag : String) : String :=
  if tag.data.contains rbrace then String.mk (afterBrace tag.data) else tag

/-- ElementTree's `element.text or ""`: the document text between the start
tag and the first child element (the leading text children of the node). -/
def etText : List XNode → String
  | [] => ""
  | XNode.elem _ _ _ :: _ => ""
  | XNode.text d :: rest => d ++ etText rest

mutual

/-- `ElementTreeParserStrategy._search_elements`: like the DOM walk, but
tags pass through `_remove_namespace`, the text filter is applied to the
raw `element.text` and the stored text is stripped afterwards. -/
def etSearch (q : SearchQuery) (element : XNode) (path : List String) :
    List ParsedElement :=
  match element with
  | XNode.text _ => []
  | XNode.elem rawTag attrs children =>
      let tag := remove_namespace rawTag
      let current_path := path ++ [tag]
      let hit : List ParsedElement :=
        if q.matches_element tag then
          if q.matches_attribute attrs then
            let text := etText children
            if q.matches_text text then
              [{ tag := tag, attributes := attrs, text := pyStrip text,
                 path := sjoin current_path }]
            else []
          else []
        else []
      hit ++ etSearchF q children current_path

/-- The `for child in element` loop of the ElementTree `_search_elements`
(ElementTree iteration exposes element children only). -/
def etSearchF (q : SearchQuery) (nodes : List XNode) (path : List String) :
    List ParsedElement :=
  match nodes with
  | [] => []
  | c :: rest => etSearch q c path ++ etSearchF q rest path

end

/-! ### SAX strategy (`sax_parser.py`) -/

/-- A SAX content event, in document order. -/
inductive SaxEvent where
  | start (name : String) (attributes : List (String × String))
  | endEl (name : String)
  | chars (content : String)

mutual

/-- The event stream the SAX parser delivers for a node: start tag,
the events of the children, end tag; text nodes deliver character data. -/
def nodeEvents : XNode → List SaxEvent
  | XNode.text d => [SaxEvent.chars d]
  | XNode.elem t a cs => SaxEvent.start t a :: forestEvents cs ++ [SaxEvent.endEl t]

/-- Event stream of a list of sibling nodes, in document order. -/
def forestEvents : List XNode → List SaxEvent
  | [] => []
  | c :: rest => nodeEvents c ++ forestEvents rest

end

/-- The mutable fields of `SAXSearchHandler`. -/
structure SaxState where
  current_path : List String
  current_text : String
  current_element : Option ParsedElement
  results : List ParsedElement
  deriving DecidableEq

/-- `SAXSearchHandler.startElement`: push the tag, reset the text buffer,
and on an element-name and attribute match make this element the candidate
(its `path` is the joined stack including the tag just pushed). -/
def saxStartElement (q : SearchQuery) (s : SaxState) (name : String)
    (attrs : List (String × String)) : SaxState :=
  let path := s.current_path ++ [name]
  let s0 : SaxState := { s with current_path := path, current_text := "" }
  let cand : Option ParsedElement :=
    some { tag := name, attributes := attrs, text := "", path := sjoin path }
  if q.matches_element name then
    if q.matches_attribute attrs then { s0 with current_element := cand }
    else s0
  else s0

/-- `SAXSearchHandler.endElement`: if a candidate is pending and its tag
equals the closing name, finalize its text from the buffer (stripped), run
the text filter, append on pass and clear the candidate; in every case pop
the path stack and reset the text buffer. -/
def saxEndElement (q : SearchQuery) (s : SaxState) (name : String) : SaxState :=
  let s1 : SaxState :=
    match s.current_element with
    | some ce =>
        if ce.tag == name then
          let fin : ParsedElement := { ce with text := pyStrip s.current_text }
          { s with
            results := if q.matches_text fin.text then s.results ++ [fin] else s.results,
            current_element := none }
        else s
    | none => s
  { s1 with current_path := s1.current_path.dropLast, current_text := "" }

/-- `SAXSearchHandler.characters`: append to the text buffer. -/
def saxCharacters (s : SaxState) (content : String) : SaxState :=
  { s with current_text := s.current_text ++ content }

/-- Dispatch one SAX event to the handler. -/
def saxStep (q : SearchQuery) (s : SaxState) (ev : SaxEvent) : SaxState :=
  match ev with
  | SaxEvent.start n a => saxStartElement q s n a
  | SaxEvent.endEl n => saxEndElement q s n
  | SaxEvent.chars c => saxCharacters s c

/-- Feed a list of events through the handler. -/
def saxRun (q : SearchQuery) (evs : List SaxEvent) (s : SaxState) : SaxState :=
  evs.foldl (saxStep q) s

/-- The handler state `SAXSearchHandler.__init__` builds. -/
def saxInit : SaxState := { current_path := [], current_text := "", current_element := none, results := [] }

/-- Results of a full SAX search over a document. -/
def saxElems (q : SearchQuery) (doc : XNode) : List ParsedElement :=
  (saxRun q (nodeEvents doc) saxInit).results

/-! ### Attribute discovery (`_collect_attributes`, `_collect_attribute_values`,
`SAXAttributeCollector`).  Python accumulates into a `set`; the embedding
accumulates into a list, so `set` membership is list membership and the
produced set is non-empty exactly when the list is. -/

mutual

/-- `DOMParserStrategy._collect_attributes`: on every element whose tag
matches `element_name` case-insensitively, add all its attribute names. -/
def domCollectAttrs (element_name : String) (node : XNode) (acc : List String) :
    List String :=
  match node with
  | XNode.text _ => acc
  | XNode.elem tag attrs children =>
      let acc1 := if pyLower tag == pyLower element_name
        then acc ++ attrs.map Prod.fst else acc
      domCollectAttrsF element_name children acc1

/-- Child loop of `_collect_attributes`. -/
def domCollectAttrsF (element_name : String) (nodes : List XNode)
    (acc : List String) : List String :=
  match nodes with
  | [] => acc
  | c :: rest => domCollectAttrsF element_name rest (domCollectAttrs element_name c acc)

end

mutual

/-- `DOMParserStrategy._collect_attribute_values`: on every element whose
tag matches, add the value of `attribute_name` when that attribute exists. -/
def domCollectVals (element_name attribute_name : String) (node : XNode)
    (acc : List String) : List String :=
  match node with
  | XNode.text _ => acc
  | XNode.elem tag attrs children =>
      let acc1 := if pyLower tag == pyLower element_name then
          match dictGet attrs attribute_name with
          | some v => acc ++ [v]
          | none => acc
        else acc
      domCollectValsF element_name attribute_name children acc1

/-- Child loop of `_collect_attribute_values`. -/
def domCollectValsF (element_name attribute_name : String) (nodes : List XNode)
    (acc : List String) : List String :=
  match nodes with
  | [] => acc
  | c :: rest =>
      domCollectValsF element_name attribute_name rest
        (domCollectVals element_name attribute_name c acc)

end

mutual

/-- `ElementTreeParserStrategy._collect_attributes`: like the DOM variant,
with the tag passed through `_remove_namespace` first. -/
def etCollectAttrs (element_name : String) (node : XNode) (acc : List String) :
    List String :=
  match node with
  | XNode.text _ => acc
  | XNode.elem rawTag attrs children =>
      let acc1 := if pyLower (remove_namespace rawTag) == pyLower element_name
        then acc ++ attrs.map Prod.fst else acc
      etCollectAttrsF element_name children acc1

/-- Child loop of the ElementTree `_collect_attributes`. -/
def etCollectAttrsF (element_name : String) (nodes : List XNode)
    (acc : List String) : List String :=
  match nodes with
  | [] => acc
  | c :: rest => etCollectAttrsF element_name rest (etCollectAttrs element_name c acc)

end

mutual

/-- `ElementTreeParserStrategy._collect_attribute_values`. -/
def etCollectVals (element_name attribute_name : String) (node : XNode)
    (acc : List String) : List String :=
  match node with
  | XNode.text _ => acc
  | XNode.elem rawTag attrs children =>
      let acc1 := if pyLower (remove_namespace rawTag) == pyLower element_name then
          match dictGet attrs attribute_name with
          | some v => acc ++ [v]
          | none => acc
        else acc
      etCollectValsF element_name attribute_name children acc1

/-- Child loop of the ElementTree `_collect_attribute_values`. -/
def etCollectValsF (element_name attribute_name : String) (nodes : List XNode)
    (acc : List String) : List String :=
  match nodes with
  | [] => acc
  | c :: rest =>
      etCollectValsF element_name attribute_name rest
        (etCollectVals element_name attribute_name c acc)

end

/-- The mutable fields of `SAXAttributeCollector`: collected attribute
names and collected values. -/
structure SaxCollectorState where
  attributes : List String
  values : List String
  deriving DecidableEq

/-- `SAXAttributeCollector.startElement` (all other events are ignored):
on a case-insensitive tag match, either record the value of the requested
attribute (value mode) or record all attribute names (name mode). -/
def saxCollectStep (element_name : String) (attribute_name : Option String)
    (st : SaxCollectorState) (ev : SaxEvent) : SaxCollectorState :=
  match ev with
  | SaxEvent.start name attrs =>
      if pyLower name == pyLower element_name then
        match attribute_name with
        | some an =>
            match dictGet attrs an with
            | some v => { st with values := st.values ++ [v] }
            | none => st
        | none => { st with attributes := st.attributes ++ attrs.map Prod.fst }
      else st
  | _ => st

/-- Run the SAX attribute collector over an event stream. -/
def saxCollectRun (element_name : String) (attribute_name : Option String)
    (evs : List SaxEvent) (st : SaxCollectorState) : SaxCollectorState :=
  evs.foldl (saxCollectStep element_name attribute_name) st

/-! ### Strategy-level operations (`base_parser.py` and the three
strategies' `parse` / `get_available_attributes` / `get_attribute_values`) -/

/-- What the filesystem holds at one path: nothing, something that exists
but is not a regular file, or a regular file whose XML parse either yields
a document tree or fails with the underlying parser's message. -/
inductive PathState where
  | missing
  | notAFile
  | file (parsed : Except String XNode)

/-- A filesystem: a map from path strings to path states. -/
def FileSystem := String → PathState

/-- A raised Python exception: its class and its message. -/
inductive XmlError where
  | fileNotFoundError (msg : String)
  | valueError (msg : String)
  deriving DecidableEq

/-- The failure kinds named by the specification. -/
inductive ErrorKind where
  | notFound
  | invalidInput
  | malformedDocument
  | other
  deriving DecidableEq

/-- Classify a raised exception into a specification failure kind, by the
exception class and the message the source formats: `validate_file` raises
`FileNotFoundError` for a missing path and `ValueError("Path is not a
file: ...")` for an existing non-file, and every operation wraps a failed
document parse in `ValueError("Failed to parse XML: ...")`. -/
def errorKind (e : XmlError) : ErrorKind :=
  match e with
  | XmlError.fileNotFoundError _ => ErrorKind.notFound
  | XmlError.valueError m =>
      if strPref "Path is not a file" m then ErrorKind.invalidInput
      else if strPref "Failed to parse XML" m then ErrorKind.malformedDocument
      else ErrorKind.other

/-- `IXMLParser.validate_file`: existence check first (raising
`FileNotFoundError`), then the regular-file check (raising `ValueError`). -/
def validate_file (fs : FileSystem) (file_path : String) : Except XmlError Unit :=
  match fs file_path with
  | PathState.missing =>
      Except.error (XmlError.fileNotFoundError ("XML file not found: " ++ file_path))
  | PathState.notAFile =>
      Except.error (XmlError.valueError ("Path is not a file: " ++ file_path))
  | PathState.file _ => Except.ok ()

/-- The `try: parse ... except Exception as e: raise ValueError(...)` block
shared verbatim by every operation of every strategy: read the already
validated file and wrap any underlying parse failure. -/
def parseDoc (fs : FileSystem) (file_path : String) : Except XmlError XNode :=
  match fs file_path with
  | PathState.file (Except.ok doc) => Except.ok doc
  | PathState.file (Except.error msg) =>
      Except.error (XmlError.valueError ("Failed to parse XML: " ++ msg))
  | _ => Except.error (XmlError.valueError ("Failed to parse XML: " ++ file_path))

/-- The common shape of every operation of every strategy: `validate_file`
first, then the parse of the document (wrapping its failure), then the pure
search/collect work on the tree. -/
def validatedOp {α : Type} (fs : FileSystem) (file_path : String)
    (work : XNode → α) : Except XmlError α :=
  match validate_file fs file_path with
  | Except.error e => Except.error e
  | Except.ok _ =>
      match parseDoc fs file_path with
      | Except.error e => Except.error e
      | Except.ok doc => Except.ok (work doc)

/-- `SAXParserStrategy.parse`.  The two timestamps are the wall-clock
readings taken around the parse-and-search window; they only enter the
recorded `execution_time_ms`. -/
def saxStrategyParse (fs : FileSystem) (file_path : String) (q : SearchQuery)
    (times : Nat × Nat) : Except XmlError SearchResult :=
  validatedOp fs file_path fun doc =>
    { query := q, elements := saxElems q doc,
      parser_type := "SAX Parser",
      execution_time_ms := times.2 - times.1 }

/-- `DOMParserStrategy.parse` (the walk starts at `dom.documentElement`,
which is the root element, with an empty inherited path). -/
def domStrategyParse (fs : FileSystem) (file_path : String) (q : SearchQuery)
    (times : Nat × Nat) : Except XmlError SearchResult :=
  validatedOp fs file_path fun doc =>
    { query := q, elements := domSearch q doc [],
      parser_type := "DOM Parser",
      execution_time_ms := times.2 - times.1 }

/-- `ElementTreeParserStrategy.parse`. -/
def etStrategyParse (fs : FileSystem) (file_path : String) (q : SearchQuery)
    (times : Nat × Nat) : Except XmlError SearchResult :=
  validatedOp fs file_path fun doc =>
    { query := q, elements := etSearch q doc [],
      parser_type := "ElementTree Parser (LINQ to XML)",
      execution_time_ms := times.2 - times.1 }

/-- `SAXParserStrategy.get_available_attributes`. -/
def saxGetAttrs (fs : FileSystem) (file_path element_name : String) :
    Except XmlError (List String) :=
  validatedOp fs file_path fun doc =>
    (saxCollectRun element_name none (nodeEvents doc) ⟨[], []⟩).attributes

/-- `SAXParserStrategy.get_attribute_values`. -/
def saxGetVals (fs : FileSystem) (file_path element_name attribute_name : String) :
    Except XmlError (List String) :=
  validatedOp fs file_path fun doc =>
    (saxCollectRun element_name (some attribute_name) (nodeEvents doc) ⟨[], []⟩).values

/-- `DOMParserStrategy.get_available_attributes`. -/
def domGetAttrs (fs : FileSystem) (file_path element_name : String) :
    Except XmlError (List String) :=
  validatedOp fs file_path fun doc => domCollectAttrs element_name doc []

/-- `DOMParserStrategy.get_attribute_values`. -/
def domGetVals (fs : FileSystem) (file_path element_name attribute_name : String) :
    Except XmlError (List String) :=
  validatedOp fs file_path fun doc => domCollectVals element_name attribute_name doc []

/-- `ElementTreeParserStrategy.get_available_attributes`. -/
def etGetAttrs (fs : FileSystem) (file_path element_name : String) :
    Except XmlError (List String) :=
  validatedOp fs file_path fun doc => etCollectAttrs element_name doc []

/-- `ElementTreeParserStrategy.get_attribute_values`. -/
def etGetVals (fs : FileSystem) (file_path element_name attribute_name : String) :
    Except XmlError (List String) :=
  validatedOp fs file_path fun doc => etCollectVals element_name attribute_name doc []

/-! ### Helper lemmas -/

/-- The empty needle occurs in every haystack. -/
theorem subIn_nil (h : List Char) : subIn [] h = true := by
  induction h with
  | nil => rfl
  | cons b bs ih => simp [subIn, leadMatch]

/-- A list is an initial segment of itself followed by anything. -/
theorem leadMatch_append (xs ys : List Char) : leadMatch xs (xs ++ ys) = true := by
  induction xs with
  | nil => rfl
  | cons a as ih => simp [leadMatch, ih]

/-- A string is a prefix of itself followed by anything. -/
theorem strPref_append (p r : String) : strPref p (p ++ r) = true := by
  show leadMatch p.data (p ++ r).data = true
  rw [String.data_append]
  exact leadMatch_append p.data r.data

/-- The failure message of a wrapped parse error does not look like the
failure message of the regular-file check. -/
theorem strPref_not_parse_msg (m : String) :
    strPref "Path is not a file" ("Failed to parse XML: " ++ m) = false := by
  show leadMatch ("Path is not a file" : String).data
      ("Failed to parse XML: " ++ m).data = false
  rw [String.data_append]
  have h1 : ("Path is not a file" : String).data = 'P' :: ("ath is not a file" : String).data := rfl
  have h2 : ("Failed to parse XML: " : String).data = 'F' :: ("ailed to parse XML: " : String).data := rfl
  rw [h1, h2]
  simp +decide [leadMatch]

/-! ### C6 -/

/-- C6: element-name matching is case-insensitive exact match —
`matches_element` is true exactly when the query's `element_name` and the
candidate tag agree after case folding; in particular `"Book"` matches
`book`, `BOOK` and `Book`. -/
theorem c6_element_match_case_insensitive :
    (∀ (q : SearchQuery) (tag : String),
        q.matches_element tag = true ↔ pyLower q.element_name = pyLower tag) ∧
    ((⟨"Book", none, none, none⟩ : SearchQuery).matches_element "book" = true ∧
     (⟨"Book", none, none, none⟩ : SearchQuery).matches_element "BOOK" = true ∧
     (⟨"Book", none, none, none⟩ : SearchQuery).matches_element "Book" = true) := by
  refine ⟨fun q tag => ?_, by decide, by decide, by decide⟩
  simp [SearchQuery.matches_element]

/-! ### C7 -/

/-- C7 counterexample: with `attribute_name = "a"` and
`attribute_value = ""` both present, the filter passes an element whose
mapping binds `"a"` to `"x"`, not to `""` — Python's falsiness of the empty
string makes the filter vacuous, contradicting the claimed "if and only if
the mapping binds attribute_name exactly to attribute_value". -/
theorem c7_counterexample :
    (⟨"e", some "a", some "", none⟩ : SearchQuery).matches_attribute [("a", "x")] = true ∧
      dictGet [("a", "x")] "a" ≠ some "" := by
  constructor
  · decide
  · decide

/-- C7 (amended): the attribute filter passes vacuously when either
`attribute_name` or `attribute_value` is absent or the empty string; when
both are present and non-empty it passes exactly when the mapping binds the
name to the value. -/
theorem c7_attribute_filter_amended (q : SearchQuery)
    (attributes : List (String × String)) :
    ((q.attribute_name = none ∨ q.attribute_value = none ∨
        q.attribute_name = some "" ∨ q.attribute_value = some "") →
      q.matches_attribute attributes = true) ∧
    (∀ n v, q.attribute_name = some n → q.attribute_value = some v →
      n ≠ "" → v ≠ "" →
      (q.matches_attribute attributes = true ↔ dictGet attributes n = some v)) := by
  constructor
  · intro h
    rcases hn : q.attribute_name with _ | n <;>
      rcases hv : q.attribute_value with _ | v <;>
        simp [SearchQuery.matches_attribute, hn, hv]
    rcases h with h | h | h | h
    · exact absurd (hn ▸ h) (by simp)
    · exact absurd (hv ▸ h) (by simp)
    · rw [hn] at h; simp at h; subst h; exact Or.inl (Or.inl (by decide))
    · rw [hv] at h; simp at h; subst h; exact Or.inl (Or.inr (by decide))
  · intro n v hn hv hne hve
    have hne' : n.isEmpty = false := by
      cases he : n.isEmpty
      · rfl
      · exact absurd ((String.isEmpty_iff _).mp he) hne
    have hve' : v.isEmpty = false := by
      cases he : v.isEmpty
      · rfl
      · exact absurd ((String.isEmpty_iff _).mp he) hve
    simp [SearchQuery.matches_attribute, hn, hv, hne', hve']

/-- C7 witness: the amended equivalence at a concrete query and mapping,
and the vacuous case at a query with no attribute filter. -/
theorem c7_witness :
    ((⟨"e", some "a", some "1", none⟩ : SearchQuery).matches_attribute [("a", "1")] = true
        ↔ dictGet [("a", "1")] "a" = some "1") ∧
      (⟨"e", none, none, none⟩ : SearchQuery).matches_attribute [("x", "y")] = true :=
  ⟨(c7_attribute_filter_amended ⟨"e", some "a", some "1", none⟩ [("a", "1")]).2
      "a" "1" rfl rfl (by decide) (by decide),
   (c7_attribute_filter_amended ⟨"e", none, none, none⟩ [("x", "y")]).1 (Or.inl rfl)⟩

/-! ### C8 -/

/-- C8: the text filter is a case-insensitive substring test on the given
text, vacuously true when `text_contains` is absent; in particular `"cat"`
matches `"Category A"`.  (A present-but-empty `text_contains` short-circuits
to true in the source, which coincides with the substring reading because
the empty string occurs in every text.) -/
theorem c8_text_filter :
    (∀ (q : SearchQuery) (text : String),
        q.matches_text text = true ↔
          (q.text_contains = none ∨
            ∃ t, q.text_contains = some t ∧ strIn (pyLower t) (pyLower text) = true)) ∧
    (⟨"e", none, none, some "cat"⟩ : SearchQuery).matches_text "Category A" = true := by
  constructor
  · intro q text
    rcases ht : q.text_contains with _ | t
    · simp [SearchQuery.matches_text, ht]
    · simp only [SearchQuery.matches_text, ht]
      cases he : t.isEmpty
      · simp [he]
      · have : t = "" := (String.isEmpty_iff _).mp he
        subst this
        have : pyLower "" = "" := by decide
        simp [this, strIn, subIn_nil]
  · decide

/-! ### C9 -/

/-- The time-independent payload of a `SearchResult`. -/
def resultData (r : SearchResult) : SearchQuery × List ParsedElement × String :=
  (r.query, r.elements, r.parser_type)

/-- C9: `parse` is deterministic per strategy — two calls with identical
filesystem, path and query but different wall-clock readings agree on the
query, the element sequence (tags, attributes, texts, paths, in order) and
the strategy name; only the recorded timing can differ. -/
theorem c9_parse_deterministic (fs : FileSystem) (file_path : String)
    (q : SearchQuery) (ta tb : Nat × Nat) :
    (saxStrategyParse fs file_path q ta).map resultData
        = (saxStrategyParse fs file_path q tb).map resultData ∧
    (domStrategyParse fs file_path q ta).map resultData
        = (domStrategyParse fs file_path q tb).map resultData ∧
    (etStrategyParse fs file_path q ta).map resultData
        = (etStrategyParse fs file_path q tb).map resultData := by
  refine ⟨?_, ?_, ?_⟩ <;>
    cases hv : validate_file fs file_path <;>
      cases hp : parseDoc fs file_path <;>
        simp [saxStrategyParse, domStrategyParse, etStrategyParse, validatedOp,
          hv, hp, resultData, Except.map]

/-! ### C2 -/

/-- `validatedOp` on a missing path: the existence check fails first. -/
theorem validatedOp_missing {α : Type} (fs : FileSystem) (p : String)
    (work : XNode → α) (h : fs p = PathState.missing) :
    validatedOp fs p work =
      Except.error (XmlError.fileNotFoundError ("XML file not found: " ++ p)) := by
  simp [validatedOp, validate_file, h]

/-- `validatedOp` on an existing non-regular-file path: the regular-file
check fails, after the existence check passed. -/
theorem validatedOp_notAFile {α : Type} (fs : FileSystem) (p : String)
    (work : XNode → α) (h : fs p = PathState.notAFile) :
    validatedOp fs p work =
      Except.error (XmlError.valueError ("Path is not a file: " ++ p)) := by
  simp [validatedOp, validate_file, h]

/-- `validatedOp` on a regular file whose parse fails: validation passes
and the underlying message is wrapped. -/
theorem validatedOp_malformed {α : Type} (fs : FileSystem) (p m : String)
    (work : XNode → α) (h : fs p = PathState.file (Except.error m)) :
    validatedOp fs p work =
      Except.error (XmlError.valueError ("Failed to parse XML: " ++ m)) := by
  simp [validatedOp, validate_file, parseDoc, h]

/-- `validatedOp` on a parseable regular file runs the work on the tree. -/
theorem validatedOp_ok {α : Type} (fs : FileSystem) (p : String) (doc : XNode)
    (work : XNode → α) (h : fs p = PathState.file (Except.ok doc)) :
    validatedOp fs p work = Except.ok (work doc) := by
  simp [validatedOp, validate_file, parseDoc, h]

/-- The regular-file failure message is classified `invalidInput`. -/
theorem errorKind_invalidInput (p : String) :
    errorKind (XmlError.valueError ("Path is not a file: " ++ p)) =
      ErrorKind.invalidInput := by
  have hsplit : ("Path is not a file: " ++ p : String) =
      "Path is not a file" ++ (": " ++ p) := by
    rw [← String.append_assoc]; congr 1
  have hpref : strPref "Path is not a file" ("Path is not a file: " ++ p) = true := by
    rw [hsplit]; exact strPref_append _ _
  simp [errorKind, hpref]

/-- The wrapped parse-failure message is classified `malformedDocument`. -/
theorem errorKind_malformed (m : String) :
    errorKind (XmlError.valueError ("Failed to parse XML: " ++ m)) =
      ErrorKind.malformedDocument := by
  have hsplit : ("Failed to parse XML: " ++ m : String) =
      "Failed to parse XML" ++ (": " ++ m) := by
    rw [← String.append_assoc]; congr 1
  have hpref : strPref "Failed to parse XML" ("Failed to parse XML: " ++ m) = true := by
    rw [hsplit]; exact strPref_append _ _
  simp [errorKind, strPref_not_parse_msg, hpref]

/-- `r` fails and its exception is classified as kind `k`. -/
def failsWith {α : Type} (r : Except XmlError α) (k : ErrorKind) : Prop :=
  ∃ e, r = Except.error e ∧ errorKind e = k

/-- C2: for every strategy and each of `parse`, `get_available_attributes`
and `get_attribute_values`: a missing path fails with the `NotFound` kind,
an existing non-regular-file path fails with the `InvalidInput` kind, and a
failing document parse fails with the `MalformedDocument` kind (validation
runs before parsing: the two validation kinds are decided by the path state
alone); the three kinds are pairwise distinct. -/
theorem c2_failure_kinds (fs : FileSystem) (file_path : String) (q : SearchQuery)
    (times : Nat × Nat) (element_name attribute_name : String) :
    (fs file_path = PathState.missing →
      failsWith (saxStrategyParse fs file_path q times) ErrorKind.notFound ∧
      failsWith (domStrategyParse fs file_path q times) ErrorKind.notFound ∧
      failsWith (etStrategyParse fs file_path q times) ErrorKind.notFound ∧
      failsWith (saxGetAttrs fs file_path element_name) ErrorKind.notFound ∧
      failsWith (domGetAttrs fs file_path element_name) ErrorKind.notFound ∧
      failsWith (etGetAttrs fs file_path element_name) ErrorKind.notFound ∧
      failsWith (saxGetVals fs file_path element_name attribute_name) ErrorKind.notFound ∧
      failsWith (domGetVals fs file_path element_name attribute_name) ErrorKind.notFound ∧
      failsWith (etGetVals fs file_path element_name attribute_name) ErrorKind.notFound) ∧
    (fs file_path = PathState.notAFile →
      failsWith (saxStrategyParse fs file_path q times) ErrorKind.invalidInput ∧
      failsWith (domStrategyParse fs file_path q times) ErrorKind.invalidInput ∧
      failsWith (etStrategyParse fs file_path q times) ErrorKind.invalidInput ∧
      failsWith (saxGetAttrs fs file_path element_name) ErrorKind.invalidInput ∧
      failsWith (domGetAttrs fs file_path element_name) ErrorKind.invalidInput ∧
      failsWith (etGetAttrs fs file_path element_name) ErrorKind.invalidInput ∧
      failsWith (saxGetVals fs file_path element_name attribute_name) ErrorKind.invalidInput ∧
      failsWith (domGetVals fs file_path element_name attribute_name) ErrorKind.invalidInput ∧
      failsWith (etGetVals fs file_path element_name attribute_name) ErrorKind.invalidInput) ∧
    (∀ m, fs file_path = PathState.file (Except.error m) →
      failsWith (saxStrategyParse fs file_path q times) ErrorKind.malformedDocument ∧
      failsWith (domStrategyParse fs file_path q times) ErrorKind.malformedDocument ∧
      failsWith (etStrategyParse fs file_path q times) ErrorKind.malformedDocument ∧
      failsWith (saxGetAttrs fs file_path element_name) ErrorKind.malformedDocument ∧
      failsWith (domGetAttrs fs file_path element_name) ErrorKind.malformedDocument ∧
      failsWith (etGetAttrs fs file_path element_name) ErrorKind.malformedDocument ∧
      failsWith (saxGetVals fs file_path element_name attribute_name) ErrorKind.malformedDocument ∧
      failsWith (domGetVals fs file_path element_name attribute_name) ErrorKind.malformedDocument ∧
      failsWith (etGetVals fs file_path element_name attribute_name) ErrorKind.malformedDocument) ∧
    (ErrorKind.notFound ≠ ErrorKind.invalidInput ∧
     ErrorKind.notFound ≠ ErrorKind.malformedDocument ∧
     ErrorKind.invalidInput ≠ ErrorKind.malformedDocument) := by
  refine ⟨fun h => ?_, fun h => ?_, fun m h => ?_, by decide, by decide, by decide⟩
  · exact ⟨⟨_, validatedOp_missing fs file_path _ h, rfl⟩,
      ⟨_, validatedOp_missing fs file_path _ h, rfl⟩,
      ⟨_, validatedOp_missing fs file_path _ h, rfl⟩,
      ⟨_, validatedOp_missing fs file_path _ h, rfl⟩,
      ⟨_, validatedOp_missing fs file_path _ h, rfl⟩,
      ⟨_, validatedOp_missing fs file_path _ h, rfl⟩,
      ⟨_, validatedOp_missing fs file_path _ h, rfl⟩,
      ⟨_, validatedOp_missing fs file_path _ h, rfl⟩,
      ⟨_, validatedOp_missing fs file_path _ h, rfl⟩⟩
  · exact ⟨⟨_, validatedOp_notAFile fs file_path _ h, errorKind_invalidInput file_path⟩,
      ⟨_, validatedOp_notAFile fs file_path _ h, errorKind_invalidInput file_path⟩,
      ⟨_, validatedOp_notAFile fs file_path _ h, errorKind_invalidInput file_path⟩,
      ⟨_, validatedOp_notAFile fs file_path _ h, errorKind_invalidInput file_path⟩,
      ⟨_, validatedOp_notAFile fs file_path _ h, errorKind_invalidInput file_path⟩,
      ⟨_, validatedOp_notAFile fs file_path _ h, errorKind_invalidInput file_path⟩,
      ⟨_, validatedOp_notAFile fs file_path _ h, errorKind_invalidInput file_path⟩,
      ⟨_, validatedOp_notAFile fs file_path _ h, errorKind_invalidInput file_path⟩,
      ⟨_, validatedOp_notAFile fs file_path _ h, errorKind_invalidInput file_path⟩⟩
  · exact ⟨⟨_, validatedOp_malformed fs file_path m _ h, errorKind_malformed m⟩,
      ⟨_, validatedOp_malformed fs file_path m _ h, errorKind_malformed m⟩,
      ⟨_, validatedOp_malformed fs file_path m _ h, errorKind_malformed m⟩,
      ⟨_, validatedOp_malformed fs file_path m _ h, errorKind_malformed m⟩,
      ⟨_, validatedOp_malformed fs file_path m _ h, errorKind_malformed m⟩,
      ⟨_, validatedOp_malformed fs file_path m _ h, errorKind_malformed m⟩,
      ⟨_, validatedOp_malformed fs file_path m _ h, errorKind_malformed m⟩,
      ⟨_, validatedOp_malformed fs file_path m _ h, errorKind_malformed m⟩,
      ⟨_, validatedOp_malformed fs file_path m _ h, errorKind_malformed m⟩⟩

/-- A one-path filesystem for concrete checks. -/
def singleFs (p : String) (st : PathState) : FileSystem :=
  fun x => if x = p then st else PathState.missing

/-- C2 witness: the three failure cases at concrete filesystems, obtained
from `c2_failure_kinds` with its hypotheses discharged. -/
theorem c2_witness :
    failsWith (saxStrategyParse (singleFs "a.xml" PathState.missing) "b.xml"
      ⟨"e", none, none, none⟩ (0, 1)) ErrorKind.notFound ∧
    failsWith (domGetAttrs (singleFs "d" PathState.notAFile) "d" "e")
      ErrorKind.invalidInput ∧
    failsWith (etGetVals (singleFs "f.xml" (PathState.file (Except.error "boom")))
      "f.xml" "e" "a") ErrorKind.malformedDocument :=
  ⟨((c2_failure_kinds (singleFs "a.xml" PathState.missing) "b.xml"
      ⟨"e", none, none, none⟩ (0, 1) "e" "a").1 (by simp [singleFs])).1,
   (((c2_failure_kinds (singleFs "d" PathState.notAFile) "d"
      ⟨"e", none, none, none⟩ (0, 1) "e" "a").2.1 (by simp [singleFs])).2.2.2.2.1),
   (((c2_failure_kinds (singleFs "f.xml" (PathState.file (Except.error "boom"))) "f.xml"
      ⟨"e", none, none, none⟩ (0, 1) "e" "a").2.2.1 "boom"
        (by simp [singleFs])).2.2.2.2.2.2.2.2)⟩

/-! ### C5 -/

/-- A key that appears in a mapping has a lookup value. -/
theorem dictGet_mem_pair (attrs : List (String × String)) (k v : String)
    (h : (k, v) ∈ attrs) : ∃ w, dictGet attrs k = some w := by
  induction attrs with
  | nil => simp at h
  | cons p rest ih =>
      rcases p with ⟨a, b⟩
      by_cases hk : a == k
      · exact ⟨b, by simp [dictGet, hk]⟩
      · rcases List.mem_cons.mp h with he | he
        · simp at he
          obtain ⟨h1, h2⟩ := he
          subst h1
          simp at hk
        · rcases ih he with ⟨w, hw⟩
          exact ⟨w, by simp [dictGet, hk, hw]⟩

mutual

/-- Value collection only grows the accumulator (node form). -/
theorem domCollectVals_mono (en an x : String) :
    (node : XNode) → ∀ acc, x ∈ acc → x ∈ domCollectVals en an node acc
  | XNode.text _ => fun _ h => by simpa [domCollectVals] using h
  | XNode.elem t a cs => fun acc h => by
      simp only [domCollectVals]
      apply domCollectValsF_mono en an x cs
      split
      · split
        · exact List.mem_append_left _ h
        · exact h
      · exact h

/-- Value collection only grows the accumulator (forest form). -/
theorem domCollectValsF_mono (en an x : String) :
    (nodes : List XNode) → ∀ acc, x ∈ acc → x ∈ domCollectValsF en an nodes acc
  | [] => fun _ h => by simpa [domCollectValsF] using h
  | c :: rest => fun acc h => by
      simp only [domCollectValsF]
      exact domCollectValsF_mono en an x rest _ (domCollectVals_mono en an x c acc h)

end

mutual

/-- Every attribute name the DOM collector discovers beyond its input
accumulator has a value that the DOM value collector always discovers. -/
theorem domCollectAttrs_src (en n : String) :
    (node : XNode) → ∀ acc, n ∈ domCollectAttrs en node acc →
      n ∈ acc ∨ ∃ v, ∀ acc2, v ∈ domCollectVals en n node acc2
  | XNode.text _ => fun _ h => Or.inl (by simpa [domCollectAttrs] using h)
  | XNode.elem t a cs => fun acc h => by
      simp only [domCollectAttrs] at h
      rcases domCollectAttrsF_src en n cs _ h with h1 | ⟨v, hv⟩
      · by_cases ht : pyLower t == pyLower en
        · simp [ht] at h1
          rcases h1 with h1 | ⟨w, hw⟩
          · exact Or.inl h1
          · rcases dictGet_mem_pair a n w hw with ⟨v, hv⟩
            refine Or.inr ⟨v, fun acc2 => ?_⟩
            simp only [domCollectVals, ht, hv]
            exact domCollectValsF_mono en n v cs _ (by simp)
        · simp [ht] at h1
          exact Or.inl h1
      · refine Or.inr ⟨v, fun acc2 => ?_⟩
        simp only [domCollectVals]
        exact hv _

/-- Forest form of `domCollectAttrs_src`. -/
theorem domCollectAttrsF_src (en n : String) :
    (nodes : List XNode) → ∀ acc, n ∈ domCollectAttrsF en nodes acc →
      n ∈ acc ∨ ∃ v, ∀ acc2, v ∈ domCollectValsF en n nodes acc2
  | [] => fun _ h => Or.inl (by simpa [domCollectAttrsF] using h)
  | c :: rest => fun acc h => by
      simp only [domCollectAttrsF] at h
      rcases domCollectAttrsF_src en n rest _ h with h1 | ⟨v, hv⟩
      · rcases domCollectAttrs_src en n c _ h1 with h2 | ⟨v, hv⟩
        · exact Or.inl h2
        · refine Or.inr ⟨v, fun acc2 => ?_⟩
          simp only [domCollectValsF]
          exact domCollectValsF_mono en n v rest _ (hv acc2)
      · refine Or.inr ⟨v, fun acc2 => ?_⟩
        simp only [domCollectValsF]
        exact hv _

end

mutual

/-- Value collection only grows the accumulator (ElementTree, node form). -/
theorem etCollectVals_mono (en an x : String) :
    (node : XNode) → ∀ acc, x ∈ acc → x ∈ etCollectVals en an node acc
  | XNode.text _ => fun _ h => by simpa [etCollectVals] using h
  | XNode.elem t a cs => fun acc h => by
      simp only [etCollectVals]
      apply etCollectValsF_mono en an x cs
      split
      · split
        · exact List.mem_append_left _ h
        · exact h
      · exact h

/-- Value collection only grows the accumulator (ElementTree, forest form). -/
theorem etCollectValsF_mono (en an x : String) :
    (nodes : List XNode) → ∀ acc, x ∈ acc → x ∈ etCollectValsF en an nodes acc
  | [] => fun _ h => by simpa [etCollectValsF] using h
  | c :: rest => fun acc h => by
      simp only [etCollectValsF]
      exact etCollectValsF_mono en an x rest _ (etCollectVals_mono en an x c acc h)

end

mutual

/-- Every attribute name the ElementTree collector discovers beyond its
input accumulator has a value the ElementTree value collector discovers. -/
theorem etCollectAttrs_src (en n : String) :
    (node : XNode) → ∀ acc, n ∈ etCollectAttrs en node acc →
      n ∈ acc ∨ ∃ v, ∀ acc2, v ∈ etCollectVals en n node acc2
  | XNode.text _ => fun _ h => Or.inl (by simpa [etCollectAttrs] using h)
  | XNode.elem t a cs => fun acc h => by
      simp only [etCollectAttrs] at h
      rcases etCollectAttrsF_src en n cs _ h with h1 | ⟨v, hv⟩
      · by_cases ht : pyLower (remove_namespace t) == pyLower en
        · simp [ht] at h1
          rcases h1 with h1 | ⟨w, hw⟩
          · exact Or.inl h1
          · rcases dictGet_mem_pair a n w hw with ⟨v, hv⟩
            refine Or.inr ⟨v, fun acc2 => ?_⟩
            simp only [etCollectVals, ht, hv]
            exact etCollectValsF_mono en n v cs _ (by simp)
        · simp [ht] at h1
          exact Or.inl h1
      · refine Or.inr ⟨v, fun acc2 => ?_⟩
        simp only [etCollectVals]
        exact hv _

/-- Forest form of `etCollectAttrs_src`. -/
theorem etCollectAttrsF_src (en n : String) :
    (nodes : List XNode) → ∀ acc, n ∈ etCollectAttrsF en nodes acc →
      n ∈ acc ∨ ∃ v, ∀ acc2, v ∈ etCollectValsF en n nodes acc2
  | [] => fun _ h => Or.inl (by simpa [etCollectAttrsF] using h)
  | c :: rest => fun acc h => by
      simp only [etCollectAttrsF] at h
      rcases etCollectAttrsF_src en n rest _ h with h1 | ⟨v, hv⟩
      · rcases etCollectAttrs_src en n c _ h1 with h2 | ⟨v, hv⟩
        · exact Or.inl h2
        · refine Or.inr ⟨v, fun acc2 => ?_⟩
          simp only [etCollectValsF]
          exact etCollectValsF_mono en n v rest _ (hv acc2)
      · refine Or.inr ⟨v, fun acc2 => ?_⟩
        simp only [etCollectValsF]
        exact hv _

end

/-- The SAX value collector only grows its value list. -/
theorem saxCollectRun_vals_mono (en : String) (an : Option String) (x : String)
    (evs : List SaxEvent) : ∀ st : SaxCollectorState, x ∈ st.values →
      x ∈ (saxCollectRun en an evs st).values := by
  induction evs with
  | nil => exact fun st h => h
  | cons e rest ih =>
      intro st h
      have hstep : x ∈ (saxCollectStep en an st e).values := by
        cases e with
        | start name attrs =>
            simp only [saxCollectStep]
            split
            · split
              · split
                · exact List.mem_append_left _ h
                · exact h
              · exact h
            · exact h
        | endEl name => exact h
        | chars c => exact h
      exact ih _ hstep

/-- Every attribute name the SAX collector discovers beyond its input state
has a value the SAX value collector discovers from every start state. -/
theorem saxCollectRun_attrs_src (en n : String) (evs : List SaxEvent) :
    ∀ st : SaxCollectorState, n ∈ (saxCollectRun en none evs st).attributes →
      n ∈ st.attributes ∨
        ∃ v, ∀ st2 : SaxCollectorState, v ∈ (saxCollectRun en (some n) evs st2).values := by
  induction evs with
  | nil => exact fun st h => Or.inl h
  | cons e rest ih =>
      intro st h
      have hrun : saxCollectRun en none (e :: rest) st
          = saxCollectRun en none rest (saxCollectStep en none st e) := rfl
      rw [hrun] at h
      rcases ih _ h with h1 | ⟨v, hv⟩
      · cases e with
        | start name attrs =>
            by_cases hm : pyLower name == pyLower en
            · simp [saxCollectStep, hm] at h1
              rcases h1 with h1 | ⟨w, hw⟩
              · exact Or.inl h1
              · rcases dictGet_mem_pair attrs n w hw with ⟨v, hvv⟩
                refine Or.inr ⟨v, fun st2 => ?_⟩
                have hrun2 : saxCollectRun en (some n) (SaxEvent.start name attrs :: rest) st2
                    = saxCollectRun en (some n) rest (saxCollectStep en (some n) st2 (SaxEvent.start name attrs)) := rfl
                rw [hrun2]
                apply saxCollectRun_vals_mono
                simp [saxCollectStep, hm, hvv]
            · simp [saxCollectStep, hm] at h1
              exact Or.inl h1
        | endEl name => exact Or.inl h1
        | chars c => exact Or.inl h1
      · refine Or.inr ⟨v, fun st2 => ?_⟩
        exact hv _

/-- C5: per strategy, every attribute name returned by a successful
`get_available_attributes` yields a non-empty value set from
`get_attribute_values` on the same unmodified file. -/
theorem c5_discovery_round_trip (fs : FileSystem) (file_path : String)
    (doc : XNode) (element_name n : String)
    (hfs : fs file_path = PathState.file (Except.ok doc)) :
    (∀ A, domGetAttrs fs file_path element_name = Except.ok A → n ∈ A →
      ∃ V, domGetVals fs file_path element_name n = Except.ok V ∧ V ≠ []) ∧
    (∀ A, saxGetAttrs fs file_path element_name = Except.ok A → n ∈ A →
      ∃ V, saxGetVals fs file_path element_name n = Except.ok V ∧ V ≠ []) ∧
    (∀ A, etGetAttrs fs file_path element_name = Except.ok A → n ∈ A →
      ∃ V, etGetVals fs file_path element_name n = Except.ok V ∧ V ≠ []) := by
  refine ⟨fun A hA hn => ?_, fun A hA hn => ?_, fun A hA hn => ?_⟩
  · rw [show domGetAttrs fs file_path element_name
        = Except.ok (domCollectAttrs element_name doc []) from
        validatedOp_ok fs file_path doc _ hfs] at hA
    injection hA with hA
    subst hA
    rcases domCollectAttrs_src element_name n doc [] hn with h | ⟨v, hv⟩
    · simp at h
    · exact ⟨domCollectVals element_name n doc [],
        validatedOp_ok fs file_path doc _ hfs,
        List.ne_nil_of_mem (hv [])⟩
  · rw [show saxGetAttrs fs file_path element_name
        = Except.ok (saxCollectRun element_name none (nodeEvents doc) ⟨[], []⟩).attributes from
        validatedOp_ok fs file_path doc _ hfs] at hA
    injection hA with hA
    subst hA
    rcases saxCollectRun_attrs_src element_name n (nodeEvents doc) ⟨[], []⟩ hn with h | ⟨v, hv⟩
    · simp at h
    · exact ⟨(saxCollectRun element_name (some n) (nodeEvents doc) ⟨[], []⟩).values,
        validatedOp_ok fs file_path doc _ hfs,
        List.ne_nil_of_mem (hv ⟨[], []⟩)⟩
  · rw [show etGetAttrs fs file_path element_name
        = Except.ok (etCollectAttrs element_name doc []) from
        validatedOp_ok fs file_path doc _ hfs] at hA
    injection hA with hA
    subst hA
    rcases etCollectAttrs_src element_name n doc [] hn with h | ⟨v, hv⟩
    · simp at h
    · exact ⟨etCollectVals element_name n doc [],
        validatedOp_ok fs file_path doc _ hfs,
        List.ne_nil_of_mem (hv [])⟩

/-- A small catalog document with one attributed `book` element. -/
def bookDoc : XNode :=
  XNode.elem "catalog" []
    [XNode.elem "book" [("id", "1")] [XNode.text "A"]]

/-- C5 witness: on the catalog document, `"id"` is discovered for `book`
and its value set is non-empty, via `c5_discovery_round_trip`. -/
theorem c5_witness :
    ∃ V, domGetVals (singleFs "b.xml" (PathState.file (Except.ok bookDoc)))
        "b.xml" "book" "id" = Except.ok V ∧ V ≠ [] :=
  (c5_discovery_round_trip (singleFs "b.xml" (PathState.file (Except.ok bookDoc)))
      "b.xml" bookDoc "book" "id" (by simp [singleFs])).1
    ["id"]
    (validatedOp_ok _ _ bookDoc _ (by simp [singleFs]))
    (by simp)

/-! ### C3 -/

/-- `Occurs anc root sub`: `sub` is a node of the tree `root`, and `anc` is
the list of tags of its proper ancestors from `root` downwards. -/
inductive Occurs : List String → XNode → XNode → Prop where
  | here (n : XNode) : Occurs [] n n
  | there {anc : List String} {c sub : XNode} (tag : String)
      (attrs : List (String × String)) (children : List XNode)
      (hc : c ∈ children) (h : Occurs anc c sub) :
      Occurs (tag :: anc) (XNode.elem tag attrs children) sub

/-- `pe` records an element occurrence of `n`, relative to path prefix `p`:
its tag and attributes are those of the occurrence and its path is the
slash-join of `p`, the ancestor tags and its own tag. -/
def PathOf (pe : ParsedElement) (n : XNode) (p : List String) : Prop :=
  ∃ anc tag attrs children, Occurs anc n (XNode.elem tag attrs children) ∧
    pe.tag = tag ∧ pe.attributes = attrs ∧ pe.path = sjoin (p ++ anc ++ [tag])

/-- Two parsed elements that agree on everything but the text field. -/
def sameElem (pe ce : ParsedElement) : Prop :=
  pe.tag = ce.tag ∧ pe.attributes = ce.attributes ∧ pe.path = ce.path

/-- `PathOf` does not look at the text field. -/
theorem PathOf.of_sameElem {pe ce : ParsedElement} {n : XNode} {p : List String}
    (hs : sameElem pe ce) (h : PathOf ce n p) : PathOf pe n p := by
  rcases h with ⟨anc, tag, attrs, children, hocc, h1, h2, h3⟩
  exact ⟨anc, tag, attrs, children, hocc, hs.1.trans h1, hs.2.1.trans h2, hs.2.2.trans h3⟩

/-- Lift an occurrence in a child forest to the parent element. -/
theorem PathOf.of_forest {pe : ParsedElement} {p : List String} {t : String}
    {a : List (String × String)} {cs : List XNode}
    (h : ∃ c, c ∈ cs ∧ PathOf pe c (p ++ [t])) : PathOf pe (XNode.elem t a cs) p := by
  rcases h with ⟨c, hc, anc, tag, attrs, children, hocc, h1, h2, h3⟩
  refine ⟨t :: anc, tag, attrs, children, Occurs.there t a cs hc hocc, h1, h2, ?_⟩
  rw [h3]
  congr 1
  simp

mutual

/-- Every DOM match records the tag and slash-joined root-to-element path
of an occurrence of the searched tree (node form, generalized over the
inherited path prefix). -/
theorem domSearch_path (q : SearchQuery) :
    (node : XNode) → ∀ p pe, pe ∈ domSearch q node p → PathOf pe node p
  | XNode.text _ => fun p pe h => by simp [domSearch] at h
  | XNode.elem t a cs => fun p pe h => by
      simp only [domSearch] at h
      rcases List.mem_append.mp h with h | h
      · have hpe : pe = (⟨t, a, pyStrip (catText cs), sjoin (p ++ [t])⟩ : ParsedElement) := by
          split at h
          · split at h
            · split at h
              · simpa using h
              · simp at h
            · simp at h
          · simp at h
        refine ⟨[], t, a, cs, Occurs.here _, by simp [hpe], by simp [hpe], ?_⟩
        simp [hpe]
      · exact PathOf.of_forest (domSearchF_path q cs (p ++ [t]) pe h)

/-- Forest form of `domSearch_path`. -/
theorem domSearchF_path (q : SearchQuery) :
    (nodes : List XNode) → ∀ p pe, pe ∈ domSearchF q nodes p →
      ∃ c, c ∈ nodes ∧ PathOf pe c p
  | [] => fun p pe h => by simp [domSearchF] at h
  | c :: rest => fun p pe h => by
      simp only [domSearchF] at h
      rcases List.mem_append.mp h with h | h
      · exact ⟨c, List.mem_cons_self c rest, domSearch_path q c p pe h⟩
      · rcases domSearchF_path q rest p pe h with ⟨c2, hc2, hp⟩
        exact ⟨c2, List.mem_cons_of_mem c hc2, hp⟩

end

mutual

/-- ElementTree variant of `domSearch_path`: the recorded tag and every
path component pass through `_remove_namespace` (node form). -/
theorem etSearch_path (q : SearchQuery) :
    (node : XNode) → ∀ p pe, pe ∈ etSearch q node p →
      ∃ anc tag attrs children, Occurs anc node (XNode.elem tag attrs children) ∧
        pe.tag = remove_namespace tag ∧
        pe.path = sjoin (p ++ (anc ++ [tag]).map remove_namespace)
  | XNode.text _ => fun p pe h => by simp [etSearch] at h
  | XNode.elem t a cs => fun p pe h => by
      simp only [etSearch] at h
      rcases List.mem_append.mp h with h | h
      · have hpe : pe = (⟨remove_namespace t, a, pyStrip (etText cs),
            sjoin (p ++ [remove_namespace t])⟩ : ParsedElement) := by
          split at h
          · split at h
            · split at h
              · simpa using h
              · simp at h
            · simp at h
          · simp at h
        exact ⟨[], t, a, cs, Occurs.here _, by simp [hpe], by simp [hpe]⟩
      · rcases etSearchF_path q cs (p ++ [remove_namespace t]) pe h with
          ⟨c, hc, anc, tag, attrs, children, hocc, h1, h2⟩
        refine ⟨t :: anc, tag, attrs, children, Occurs.there t a cs hc hocc, h1, ?_⟩
        rw [h2]
        congr 1
        simp

/-- Forest form of `etSearch_path`. -/
theorem etSearchF_path (q : SearchQuery) :
    (nodes : List XNode) → ∀ p pe, pe ∈ etSearchF q nodes p →
      ∃ c, c ∈ nodes ∧ ∃ anc tag attrs children,
        Occurs anc c (XNode.elem tag attrs children) ∧
        pe.tag = remove_namespace tag ∧
        pe.path = sjoin (p ++ (anc ++ [tag]).map remove_namespace)
  | [] => fun p pe h => by simp [etSearchF] at h
  | c :: rest => fun p pe h => by
      simp only [etSearchF] at h
      rcases List.mem_append.mp h with h | h
      · exact ⟨c, List.mem_cons_self c rest, etSearch_path q c p pe h⟩
      · rcases etSearchF_path q rest p pe h with ⟨c2, hc2, hp⟩
        exact ⟨c2, List.mem_cons_of_mem c hc2, hp⟩

end

/-- `saxStartElement` as a single state equation. -/
theorem saxStart_eq (q : SearchQuery) (s : SaxState) (name : String)
    (attrs : List (String × String)) :
    saxStartElement q s name attrs =
      { current_path := s.current_path ++ [name], current_text := "",
        current_element :=
          if q.matches_element name && q.matches_attribute attrs
            then some ⟨name, attrs, "", sjoin (s.current_path ++ [name])⟩
            else s.current_element,
        results := s.results } := by
  simp only [saxStartElement]
  by_cases h1 : q.matches_element name <;>
    by_cases h2 : q.matches_attribute attrs <;> simp [h1, h2]

/-- `saxEndElement` with no pending candidate: pop and reset only. -/
theorem saxEnd_none (q : SearchQuery) (s : SaxState) (name : String)
    (h : s.current_element = none) :
    saxEndElement q s name =
      { s with current_path := s.current_path.dropLast, current_text := "" } := by
  simp [saxEndElement, h]

/-- `saxEndElement` with a pending candidate whose tag differs from the
closing name: the candidate stays pending. -/
theorem saxEnd_keep (q : SearchQuery) (s : SaxState) (name : String)
    (ce : ParsedElement) (h : s.current_element = some ce)
    (hne : (ce.tag == name) = false) :
    saxEndElement q s name =
      { s with current_path := s.current_path.dropLast, current_text := "" } := by
  simp [saxEndElement, h, hne]

/-- `saxEndElement` finalizing the pending candidate: its text is the
stripped buffer, it is appended when the text filter passes, and the
candidate slot is cleared. -/
theorem saxEnd_fin (q : SearchQuery) (s : SaxState) (name : String)
    (ce : ParsedElement) (h : s.current_element = some ce)
    (heq : (ce.tag == name) = true) :
    saxEndElement q s name =
      { current_path := s.current_path.dropLast, current_text := "",
        current_element := none,
        results := if q.matches_text (pyStrip s.current_text)
          then s.results ++ [{ ce with text := pyStrip s.current_text }]
          else s.results } := by
  simp [saxEndElement, h, heq]

/-- Splitting a SAX run over concatenated event lists. -/
theorem saxRun_append (q : SearchQuery) (l1 l2 : List SaxEvent) (s : SaxState) :
    saxRun q (l1 ++ l2) s = saxRun q l2 (saxRun q l1 s) := by
  simp [saxRun, List.foldl_append]

mutual

/-- Running the events of one node: the stack is restored, and every new
result and any new candidate records an occurrence of the node with its
correct slash-joined path; old results and a previously pending candidate
pass through (possibly finalized with some text). -/
theorem saxNode_path (q : SearchQuery) :
    (n : XNode) → ∀ s : SaxState,
      (saxRun q (nodeEvents n) s).current_path = s.current_path ∧
      (∀ pe, pe ∈ (saxRun q (nodeEvents n) s).results →
        pe ∈ s.results ∨
          (∃ ce, s.current_element = some ce ∧ sameElem pe ce) ∨
          PathOf pe n s.current_path) ∧
      (∀ pe, (saxRun q (nodeEvents n) s).current_element = some pe →
        s.current_element = some pe ∨ PathOf pe n s.current_path)
  | XNode.text d => fun s => by
      refine ⟨rfl, fun pe h => Or.inl h, fun pe h => Or.inl h⟩
  | XNode.elem t a cs => fun s => by
      have hrun : saxRun q (nodeEvents (XNode.elem t a cs)) s
          = saxEndElement q
              (saxRun q (forestEvents cs) (saxStartElement q s t a)) t := by
        show saxRun q (SaxEvent.start t a :: forestEvents cs ++ [SaxEvent.endEl t]) s
          = _
        rw [show (SaxEvent.start t a :: forestEvents cs ++ [SaxEvent.endEl t] : List SaxEvent)
            = SaxEvent.start t a :: (forestEvents cs ++ [SaxEvent.endEl t]) from rfl]
        show saxRun q (forestEvents cs ++ [SaxEvent.endEl t]) (saxStartElement q s t a) = _
        rw [saxRun_append]
        rfl
      set s1 := saxStartElement q s t a with hs1
      set s2 := saxRun q (forestEvents cs) s1 with hs2
      obtain ⟨hpath2, hres2, hcand2⟩ := saxForest_path q cs s1
      have hs1path : s1.current_path = s.current_path ++ [t] := by
        rw [hs1, saxStart_eq]
      have hs1res : s1.results = s.results := by rw [hs1, saxStart_eq]
      have hcand1 : ∀ pe, s1.current_element = some pe →
          s.current_element = some pe ∨ PathOf pe (XNode.elem t a cs) s.current_path := by
        intro pe h
        rw [hs1, saxStart_eq] at h
        by_cases hm : q.matches_element t && q.matches_attribute a
        · rw [if_pos hm] at h
          injection h with h
          subst h
          right
          exact ⟨[], t, a, cs, Occurs.here _, rfl, rfl, by simp⟩
        · rw [if_neg hm] at h
          exact Or.inl h
      have hfromF : ∀ (c : XNode) (pe : ParsedElement), PathOf pe c s1.current_path →
          c ∈ cs → PathOf pe (XNode.elem t a cs) s.current_path := by
        intro c pe hp hc
        exact PathOf.of_forest ⟨c, hc, by rwa [hs1path] at hp⟩
      have hresOf : ∀ pe, pe ∈ s2.results →
          pe ∈ s.results ∨
            (∃ ce, s.current_element = some ce ∧ sameElem pe ce) ∨
            PathOf pe (XNode.elem t a cs) s.current_path := by
        intro pe h
        rcases hres2 pe h with h | ⟨ce, hce, hse⟩ | h
        · rw [hs1res] at h
          exact Or.inl h
        · rcases hcand1 ce hce with h1 | h1
          · exact Or.inr (Or.inl ⟨ce, h1, hse⟩)
          · exact Or.inr (Or.inr (PathOf.of_sameElem hse h1))
        · rcases h with ⟨c, hc, hp⟩
          exact Or.inr (Or.inr (hfromF c pe hp hc))
      have hcandOf : ∀ pe, s2.current_element = some pe →
          s.current_element = some pe ∨ PathOf pe (XNode.elem t a cs) s.current_path := by
        intro pe h
        rcases hcand2 pe h with h | ⟨c, hc, hp⟩
        · exact hcand1 pe h
        · exact Or.inr (hfromF c pe hp hc)
      have hdrop : s2.current_path.dropLast = s.current_path := by
        rw [hpath2, hs1path]
        simp
      cases hce : s2.current_element with
      | none =>
          rw [hrun, saxEnd_none q s2 t hce]
          exact ⟨hdrop, fun pe h => hresOf pe h, fun pe h => hcandOf pe h⟩
      | some ce =>
          by_cases hct : (ce.tag == t) = true
          · rw [hrun, saxEnd_fin q s2 t ce hce hct]
            refine ⟨hdrop, fun pe h => ?_, fun pe h => Option.noConfusion h⟩
            by_cases hmt : q.matches_text (pyStrip s2.current_text)
            · have h3 : pe ∈ (if q.matches_text (pyStrip s2.current_text) = true then s2.results ++ [{ ce with text := pyStrip s2.current_text }] else s2.results) := h
              rw [if_pos hmt] at h3
              rcases List.mem_append.mp h3 with h4 | h4
              · exact hresOf pe h4
              · have hpe : pe = { ce with text := pyStrip s2.current_text } := by
                  simpa using h4
                have hse : sameElem pe ce := by
                  refine ⟨?_, ?_, ?_⟩ <;> simp [hpe]
                rcases hcandOf ce hce with h1 | h1
                · exact Or.inr (Or.inl ⟨ce, h1, hse⟩)
                · exact Or.inr (Or.inr (PathOf.of_sameElem hse h1))
            · have h3 : pe ∈ (if q.matches_text (pyStrip s2.current_text) = true then s2.results ++ [{ ce with text := pyStrip s2.current_text }] else s2.results) := h
              rw [if_neg hmt] at h3
              exact hresOf pe h3
          · have hf : (ce.tag == t) = false := by
              cases hb : (ce.tag == t)
              · rfl
              · exact absurd hb hct
            rw [hrun, saxEnd_keep q s2 t ce hce hf]
            exact ⟨hdrop, fun pe h => hresOf pe h, fun pe h => hcandOf pe h⟩

/-- Forest form of `saxNode_path`. -/
theorem saxForest_path (q : SearchQuery) :
    (nodes : List XNode) → ∀ s : SaxState,
      (saxRun q (forestEvents nodes) s).current_path = s.current_path ∧
      (∀ pe, pe ∈ (saxRun q (forestEvents nodes) s).results →
        pe ∈ s.results ∨
          (∃ ce, s.current_element = some ce ∧ sameElem pe ce) ∨
          (∃ c, c ∈ nodes ∧ PathOf pe c s.current_path)) ∧
      (∀ pe, (saxRun q (forestEvents nodes) s).current_element = some pe →
        s.current_element = some pe ∨ ∃ c, c ∈ nodes ∧ PathOf pe c s.current_path)
  | [] => fun s => ⟨rfl, fun pe h => Or.inl h, fun pe h => Or.inl h⟩
  | c :: rest => fun s => by
      have hrun : saxRun q (forestEvents (c :: rest)) s
          = saxRun q (forestEvents rest) (saxRun q (nodeEvents c) s) := by
        show saxRun q (nodeEvents c ++ forestEvents rest) s = _
        rw [saxRun_append]
      obtain ⟨hp1, hr1, hc1⟩ := saxNode_path q c s
      obtain ⟨hp2, hr2, hc2⟩ := saxForest_path q rest (saxRun q (nodeEvents c) s)
      rw [hrun]
      refine ⟨hp2.trans hp1, fun pe h => ?_, fun pe h => ?_⟩
      · rcases hr2 pe h with h | ⟨ce, hce, hse⟩ | ⟨c2, hc2m, hpp⟩
        · rcases hr1 pe h with h | ⟨ce, hce, hse⟩ | h
          · exact Or.inl h
          · exact Or.inr (Or.inl ⟨ce, hce, hse⟩)
          · exact Or.inr (Or.inr ⟨c, List.mem_cons_self c rest, h⟩)
        · rcases hc1 ce hce with h1 | h1
          · exact Or.inr (Or.inl ⟨ce, h1, hse⟩)
          · exact Or.inr (Or.inr ⟨c, List.mem_cons_self c rest,
              PathOf.of_sameElem hse h1⟩)
        · rw [hp1] at hpp
          exact Or.inr (Or.inr ⟨c2, List.mem_cons_of_mem c hc2m, hpp⟩)
      · rcases hc2 pe h with h | ⟨c2, hc2m, hpp⟩
        · rcases hc1 pe h with h1 | h1
          · exact Or.inl h1
          · exact Or.inr ⟨c, List.mem_cons_self c rest, h1⟩
        · rw [hp1] at hpp
          exact Or.inr ⟨c2, List.mem_cons_of_mem c hc2m, hpp⟩

end

/-- The three-level example document `<a><b><c/></b></a>`. -/
def abcDoc : XNode :=
  XNode.elem "a" [] [XNode.elem "b" [] [XNode.elem "c" [] []]]

/-- C3: in every strategy, each returned element's `path` is the
slash-joined chain of ancestor tags from the document root down to and
including the matched element (for the ElementTree strategy, of the
namespace-stripped tags); in particular, searching `<a><b><c/></b></a>`
for `c` yields the single path `"a/b/c"` in all three strategies. -/
theorem c3_path_correct :
    (∀ (q : SearchQuery) (doc : XNode) (pe : ParsedElement),
      pe ∈ domSearch q doc [] →
        ∃ anc tag attrs children, Occurs anc doc (XNode.elem tag attrs children) ∧
          pe.tag = tag ∧ pe.path = sjoin (anc ++ [tag])) ∧
    (∀ (q : SearchQuery) (doc : XNode) (pe : ParsedElement),
      pe ∈ saxElems q doc →
        ∃ anc tag attrs children, Occurs anc doc (XNode.elem tag attrs children) ∧
          pe.tag = tag ∧ pe.path = sjoin (anc ++ [tag])) ∧
    (∀ (q : SearchQuery) (doc : XNode) (pe : ParsedElement),
      pe ∈ etSearch q doc [] →
        ∃ anc tag attrs children, Occurs anc doc (XNode.elem tag attrs children) ∧
          pe.tag = remove_namespace tag ∧
          pe.path = sjoin ((anc ++ [tag]).map remove_namespace)) ∧
    ((domSearch ⟨"c", none, none, none⟩ abcDoc []).map ParsedElement.path = ["a/b/c"] ∧
     (saxElems ⟨"c", none, none, none⟩ abcDoc).map ParsedElement.path = ["a/b/c"] ∧
     (etSearch ⟨"c", none, none, none⟩ abcDoc []).map ParsedElement.path = ["a/b/c"]) := by
  refine ⟨fun q doc pe h => ?_, fun q doc pe h => ?_, fun q doc pe h => ?_,
    by decide, by decide, by decide⟩
  · rcases domSearch_path q doc [] pe h with ⟨anc, tag, attrs, children, hocc, h1, h2, h3⟩
    exact ⟨anc, tag, attrs, children, hocc, h1, by simpa using h3⟩
  · obtain ⟨hp, hr, hc⟩ := saxNode_path q doc saxInit
    rcases hr pe h with h | ⟨ce, hce, _⟩ | h
    · simp [saxInit] at h
    · simp [saxInit] at hce
    · rcases h with ⟨anc, tag, attrs, children, hocc, h1, h2, h3⟩
      exact ⟨anc, tag, attrs, children, hocc, h1, by simpa [saxInit] using h3⟩
  · rcases etSearch_path q doc [] pe h with ⟨anc, tag, attrs, children, hocc, h1, h2⟩
    exact ⟨anc, tag, attrs, children, hocc, h1, by simpa using h2⟩

/-- C3 witness: the DOM conclusion instantiated at the concrete document,
query and returned element. -/
theorem c3_witness :
    ∃ anc tag attrs children, Occurs anc abcDoc (XNode.elem tag attrs children) ∧
      (⟨"c", [], "", "a/b/c"⟩ : ParsedElement).tag = tag ∧
      (⟨"c", [], "", "a/b/c"⟩ : ParsedElement).path = sjoin (anc ++ [tag]) :=
  c3_path_correct.1 ⟨"c", none, none, none⟩ abcDoc ⟨"c", [], "", "a/b/c"⟩ (by decide)

/-! ### C4 -/

/-- Document `<b><c/>mid<c/></b>`: character data between the tags of the
two children of the candidate `b`. -/
def midDoc : XNode :=
  XNode.elem "b" []
    [XNode.elem "c" [] [], XNode.text "mid", XNode.elem "c" [] []]

/-- C4 counterexample: in `<b><c/>mid<c/></b>` the character data `"mid"`
arrives between the children's tags of the candidate `b`, yet `b`'s
finalized text is empty — the buffer was reset by the second `<c>` start
tag (and by every end tag), so no descendant-side text is accumulated,
contradicting the claimed accumulation. -/
theorem c4_counterexample :
    saxElems ⟨"b", none, none, none⟩ midDoc
      = [⟨"b", [], "", "b"⟩] := by decide

/-- C4 (amended): the streaming text buffer is reset on every start-tag
event regardless of candidacy, and likewise on every end-tag event; as a
consequence a candidate element with child elements does not accumulate
text appearing between its children's tags into its finalized text — for
`<b><c/>mid<c/></b>` the finalized text of `b` is empty. -/
theorem c4_buffer_resets :
    (∀ (q : SearchQuery) (s : SaxState) (name : String)
        (attrs : List (String × String)),
      (saxStep q s (SaxEvent.start name attrs)).current_text = "") ∧
    (∀ (q : SearchQuery) (s : SaxState) (name : String),
      (saxStep q s (SaxEvent.endEl name)).current_text = "") ∧
    (saxElems ⟨"b", none, none, none⟩ midDoc).map ParsedElement.text = [""] := by
  refine ⟨fun q s name attrs => ?_, fun q s name => ?_, by decide⟩
  · rw [show saxStep q s (SaxEvent.start name attrs)
        = saxStartElement q s name attrs from rfl, saxStart_eq]
  · show (saxEndElement q s name).current_text = ""
    cases hce : s.current_element with
    | none => rw [saxEnd_none q s name hce]
    | some ce =>
        cases hct : ce.tag == name
        · rw [saxEnd_keep q s name ce hce hct]
        · rw [saxEnd_fin q s name ce hce hct]

/-! ### C1 -/

mutual

/-- No tag in the tree is changed by `_remove_namespace` (so all three
strategies see the same tag strings). -/
def cleanNode : XNode → Bool
  | XNode.text _ => true
  | XNode.elem tag _ children => (remove_namespace tag == tag) && cleanForest children

/-- Forest form of `cleanNode`. -/
def cleanForest : List XNode → Bool
  | [] => true
  | c :: rest => cleanNode c && cleanForest rest

end

mutual

/-- Every element passing the query's element-name and attribute filters
has text children only, and its text carries no surrounding whitespace. -/
def c1Node (q : SearchQuery) : XNode → Bool
  | XNode.text _ => true
  | XNode.elem tag attrs children =>
      (if q.matches_element tag && q.matches_attribute attrs
        then allText children && (pyStrip (catText children) == catText children)
        else true)
      && c1Forest q children

/-- Forest form of `c1Node`. -/
def c1Forest (q : SearchQuery) : List XNode → Bool
  | [] => true
  | c :: rest => c1Node q c && c1Forest q rest

end

/-- On a forest of text nodes, the leading-text reading agrees with the
all-text reading. -/
theorem etText_of_allText : (cs : List XNode) → allText cs = true →
    etText cs = catText cs
  | [], _ => rfl
  | XNode.text d :: rest, h => by
      simp only [etText, catText]
      rw [etText_of_allText rest (by simpa [allText] using h)]
  | XNode.elem _ _ _ :: _, h => by simp [allText] at h

/-- The DOM walk finds nothing in a forest of text nodes. -/
theorem domSearchF_allText (q : SearchQuery) : (cs : List XNode) →
    allText cs = true → ∀ p, domSearchF q cs p = []
  | [], _, _ => rfl
  | XNode.text _ :: rest, h, p => by
      simp only [domSearchF, domSearch]
      exact domSearchF_allText q rest (by simpa [allText] using h) p
  | XNode.elem _ _ _ :: _, h, _ => by simp [allText] at h

mutual

/-- Under the C1 side conditions the ElementTree walk and the DOM walk
return the same elements (node form). -/
theorem etDom_node (q : SearchQuery) : (n : XNode) → cleanNode n = true →
    c1Node q n = true → ∀ p, etSearch q n p = domSearch q n p
  | XNode.text _ => fun _ _ _ => rfl
  | XNode.elem t a cs => fun hc h1 p => by
      rw [cleanNode, Bool.and_eq_true] at hc
      obtain ⟨htagb, hcf⟩ := hc
      have htag : remove_namespace t = t := eq_of_beq htagb
      rw [c1Node, Bool.and_eq_true] at h1
      obtain ⟨hif, h1f⟩ := h1
      have hforest : etSearchF q cs (p ++ [t]) = domSearchF q cs (p ++ [t]) :=
        etDom_forest q cs hcf h1f (p ++ [t])
      cases hm : q.matches_element t with
      | false => simp [etSearch, domSearch, htag, hm, hforest]
      | true =>
          cases ha : q.matches_attribute a with
          | false => simp [etSearch, domSearch, htag, hm, ha, hforest]
          | true =>
              rw [hm, ha] at hif
              simp only [Bool.and_self, if_true, Bool.and_eq_true] at hif
              obtain ⟨hat, hstripb⟩ := hif
              have hstrip : pyStrip (catText cs) = catText cs := eq_of_beq hstripb
              have he : etText cs = catText cs := etText_of_allText cs hat
              simp [etSearch, domSearch, htag, hm, ha, he, hstrip, hforest]

/-- Forest form of `etDom_node`. -/
theorem etDom_forest (q : SearchQuery) : (cs : List XNode) → cleanForest cs = true →
    c1Forest q cs = true → ∀ p, etSearchF q cs p = domSearchF q cs p
  | [] => fun _ _ _ => rfl
  | c :: rest => fun hc h1 p => by
      rw [cleanForest, Bool.and_eq_true] at hc
      rw [c1Forest, Bool.and_eq_true] at h1
      simp only [etSearchF, domSearchF]
      rw [etDom_node q c hc.1 h1.1 p, etDom_forest q rest hc.2 h1.2 p]

end

/-- Events of a text-node forest only feed the character buffer. -/
theorem saxRun_text_forest (q : SearchQuery) : (cs : List XNode) →
    allText cs = true → ∀ s : SaxState,
      saxRun q (forestEvents cs) s
        = { s with current_text := s.current_text ++ catText cs }
  | [], _, s => by simp [forestEvents, saxRun, catText]
  | XNode.text d :: rest, h, s => by
      have hrest : allText rest = true := by simpa [allText] using h
      have hrun : saxRun q (forestEvents (XNode.text d :: rest)) s
          = saxRun q (forestEvents rest) (saxCharacters s d) := by
        show saxRun q (nodeEvents (XNode.text d) ++ forestEvents rest) s = _
        rw [saxRun_append]
        rfl
      rw [hrun, saxRun_text_forest q rest hrest (saxCharacters s d)]
      simp [saxCharacters, catText, String.append_assoc]
  | XNode.elem _ _ _ :: _, h, _ => by simp [allText] at h

/-- Character buffer left behind by the events of one node. -/
def nodeAfterText : XNode → String → String
  | XNode.text d, b => b ++ d
  | XNode.elem _ _ _, _ => ""

/-- Character buffer left behind by the events of a forest. -/
def forestAfterText : List XNode → String → String
  | [], b => b
  | c :: rest, b => forestAfterText rest (nodeAfterText c b)

mutual

/-- Under the C1 side condition the SAX machine started with no pending
candidate consumes one node's events by restoring the stack, clearing the
candidate and appending exactly the DOM matches of that node (node form). -/
theorem saxDom_node (q : SearchQuery) : (n : XNode) → c1Node q n = true →
    ∀ (p : List String) (b : String) (res : List ParsedElement),
      saxRun q (nodeEvents n) ⟨p, b, none, res⟩
        = ⟨p, nodeAfterText n b, none, res ++ domSearch q n p⟩
  | XNode.text d => fun _ p b res => by
      simp [nodeEvents, saxRun, saxStep, saxCharacters, nodeAfterText, domSearch]
  | XNode.elem t a cs => fun h1 p b res => by
      rw [c1Node, Bool.and_eq_true] at h1
      obtain ⟨hif, h1f⟩ := h1
      have hrun : saxRun q (nodeEvents (XNode.elem t a cs)) ⟨p, b, none, res⟩
          = saxEndElement q
              (saxRun q (forestEvents cs)
                (saxStartElement q ⟨p, b, none, res⟩ t a)) t := by
        show saxRun q (SaxEvent.start t a :: forestEvents cs ++ [SaxEvent.endEl t])
            ⟨p, b, none, res⟩ = _
        show saxRun q (forestEvents cs ++ [SaxEvent.endEl t])
            (saxStartElement q ⟨p, b, none, res⟩ t a) = _
        rw [saxRun_append]
        rfl
      rw [hrun, saxStart_eq]
      by_cases hma : (q.matches_element t && q.matches_attribute a) = true
      · rw [if_pos hma] at hif
        obtain ⟨hat, hstripb⟩ := Bool.and_eq_true _ _ |>.mp hif
        rw [if_pos hma, saxRun_text_forest q cs hat,
          saxEnd_fin q _ t ⟨t, a, "", sjoin (p ++ [t])⟩ rfl (by simp)]
        obtain ⟨hm, ha⟩ := Bool.and_eq_true _ _ |>.mp hma
        have hdf : domSearchF q cs (p ++ [t]) = [] := domSearchF_allText q cs hat _
        have hcat : ("" : String) ++ catText cs = catText cs := String.empty_append _
        simp only [SaxState.mk.injEq]
        refine ⟨by simp, by simp [nodeAfterText], by trivial, ?_⟩
        simp only [domSearch, hm, ha, if_true, hdf, hcat]
        cases hmt : q.matches_text (pyStrip (catText cs)) with
        | true => simp [hmt]
        | false => simp [hmt]
      · rw [if_neg hma, saxDom_forest q cs h1f _ "" res, saxEnd_none q _ t rfl]
        have hma2 : (q.matches_element t && q.matches_attribute a) = false := by
          cases hb : q.matches_element t && q.matches_attribute a
          · rfl
          · exact absurd hb hma
        have hhit : domSearch q (XNode.elem t a cs) p = domSearchF q cs (p ++ [t]) := by
          cases hm : q.matches_element t with
          | false => simp [domSearch, hm]
          | true =>
              cases hb : q.matches_attribute a with
              | false => simp [domSearch, hm, hb]
              | true => rw [hm, hb] at hma2; simp at hma2
        rw [hhit]
        simp only [SaxState.mk.injEq]
        exact ⟨by simp, by simp [nodeAfterText], by trivial, by trivial⟩

/-- Forest form of `saxDom_node`. -/
theorem saxDom_forest (q : SearchQuery) : (cs : List XNode) → c1Forest q cs = true →
    ∀ (p : List String) (b : String) (res : List ParsedElement),
      saxRun q (forestEvents cs) ⟨p, b, none, res⟩
        = ⟨p, forestAfterText cs b, none, res ++ domSearchF q cs p⟩
  | [] => fun _ p b res => by
      simp [forestEvents, saxRun, forestAfterText, domSearchF]
  | c :: rest => fun h1 p b res => by
      rw [c1Forest, Bool.and_eq_true] at h1
      have hrun : saxRun q (forestEvents (c :: rest)) ⟨p, b, none, res⟩
          = saxRun q (forestEvents rest) (saxRun q (nodeEvents c) ⟨p, b, none, res⟩) := by
        show saxRun q (nodeEvents c ++ forestEvents rest) _ = _
        rw [saxRun_append]
      rw [hrun, saxDom_node q c h1.1 p b res,
        saxDom_forest q rest h1.2 p (nodeAfterText c b) (res ++ domSearch q c p)]
      simp [forestAfterText, domSearchF]

end

/-- The document `<a>x<b/>y</a>`: text interleaved with a child element. -/
def mixDoc : XNode :=
  XNode.elem "a" [] [XNode.text "x", XNode.elem "b" [] [], XNode.text "y"]

/-- C1 counterexample: on `<a>x<b/>y</a>` with query element name `a`, the
three strategies return the matched root with three different texts (DOM
joins all direct text, ElementTree keeps only the text before the first
child, SAX keeps only the buffer accumulated since the last tag), so the
tuple sequences differ pairwise. -/
theorem c1_counterexample :
    (domSearch ⟨"a", none, none, none⟩ mixDoc []).map ParsedElement.text = ["xy"] ∧
    (etSearch ⟨"a", none, none, none⟩ mixDoc []).map ParsedElement.text = ["x"] ∧
    (saxElems ⟨"a", none, none, none⟩ mixDoc).map ParsedElement.text = ["y"] ∧
    saxElems ⟨"a", none, none, none⟩ mixDoc
      ≠ domSearch ⟨"a", none, none, none⟩ mixDoc [] ∧
    etSearch ⟨"a", none, none, none⟩ mixDoc []
      ≠ domSearch ⟨"a", none, none, none⟩ mixDoc [] ∧
    etSearch ⟨"a", none, none, none⟩ mixDoc []
      ≠ saxElems ⟨"a", none, none, none⟩ mixDoc :=
  ⟨by decide, by decide, by decide, by decide, by decide, by decide⟩

/-- C1 (amended): for a parseable document in which no tag is changed by
namespace stripping and every element passing the element-name and
attribute filters has only text children with no surrounding whitespace,
the three strategies' `parse` operations return the same (tag, attributes,
text, path) tuples in the same document order, whatever the wall-clock
readings. -/
theorem c1_cross_strategy_amended (fs : FileSystem) (file_path : String)
    (q : SearchQuery) (doc : XNode) (t1 t2 t3 : Nat × Nat)
    (hfs : fs file_path = PathState.file (Except.ok doc))
    (hclean : cleanNode doc = true) (hcond : c1Node q doc = true) :
    (saxStrategyParse fs file_path q t1).map SearchResult.elements
        = (domStrategyParse fs file_path q t2).map SearchResult.elements ∧
    (etStrategyParse fs file_path q t3).map SearchResult.elements
        = (domStrategyParse fs file_path q t2).map SearchResult.elements := by
  have hsax : saxStrategyParse fs file_path q t1
      = Except.ok
        { query := q, elements := saxElems q doc,
          parser_type := "SAX Parser", execution_time_ms := t1.2 - t1.1 } :=
    validatedOp_ok fs file_path doc _ hfs
  have hdom : domStrategyParse fs file_path q t2
      = Except.ok
        { query := q, elements := domSearch q doc [],
          parser_type := "DOM Parser", execution_time_ms := t2.2 - t2.1 } :=
    validatedOp_ok fs file_path doc _ hfs
  have het : etStrategyParse fs file_path q t3
      = Except.ok
        { query := q, elements := etSearch q doc [],
          parser_type := "ElementTree Parser (LINQ to XML)",
          execution_time_ms := t3.2 - t3.1 } :=
    validatedOp_ok fs file_path doc _ hfs
  have hsaxdom : saxElems q doc = domSearch q doc [] := by
    show (saxRun q (nodeEvents doc) saxInit).results = _
    rw [show saxInit = (⟨[], "", none, []⟩ : SaxState) from rfl,
      saxDom_node q doc hcond [] "" []]
    simp
  have hetdom : etSearch q doc [] = domSearch q doc [] :=
    etDom_node q doc hclean hcond []
  rw [hsax, hdom, het]
  simp [Except.map, hsaxdom, hetdom]

/-- A conforming document for the C1 witness: `<r><b k="v">hi</b></r>`. -/
def conformingDoc : XNode :=
  XNode.elem "r" [] [XNode.elem "b" [("k", "v")] [XNode.text "hi"]]

/-- C1 witness: the amended equivalence at a concrete filesystem, document
and query, all hypotheses discharged by evaluation. -/
theorem c1_witness :
    (saxStrategyParse (singleFs "c.xml" (PathState.file (Except.ok conformingDoc)))
        "c.xml" ⟨"b", none, none, none⟩ (0, 5)).map SearchResult.elements
      = (domStrategyParse (singleFs "c.xml" (PathState.file (Except.ok conformingDoc)))
        "c.xml" ⟨"b", none, none, none⟩ (0, 7)).map SearchResult.elements ∧
    (etStrategyParse (singleFs "c.xml" (PathState.file (Except.ok conformingDoc)))
        "c.xml" ⟨"b", none, none, none⟩ (0, 9)).map SearchResult.elements
      = (domStrategyParse (singleFs "c.xml" (PathState.file (Except.ok conformingDoc)))
        "c.xml" ⟨"b", none, none, none⟩ (0, 7)).map SearchResult.elements :=
  c1_cross_strategy_amended _ "c.xml" ⟨"b", none, none, none⟩ conformingDoc
    (0, 5) (0, 7) (0, 9) (by simp [singleFs]) (by decide) (by decide)

/-! ### C10 -/

mutual

/-- Some element of the tree passes the element-name and attribute filters. -/
def hasMatch (q : SearchQuery) : XNode → Bool
  | XNode.text _ => false
  | XNode.elem t a cs => (q.matches_element t && q.matches_attribute a) || hasMatchF q cs

/-- Forest form of `hasMatch`. -/
def hasMatchF (q : SearchQuery) : List XNode → Bool
  | [] => false
  | c :: rest => hasMatch q c || hasMatchF q rest

end

mutual

/-- Every element of the tree bearing exactly the tag `tO` passes the
element-name and attribute filters. -/
def tagOk (q : SearchQuery) (tO : String) : XNode → Bool
  | XNode.text _ => true
  | XNode.elem t a cs =>
      (if t == tO then q.matches_element t && q.matches_attribute a else true)
        && tagOkF q tO cs

/-- Forest form of `tagOk`. -/
def tagOkF (q : SearchQuery) (tO : String) : List XNode → Bool
  | [] => true
  | c :: rest => tagOk q tO c && tagOkF q tO rest

end

/-- Joining a strictly longer chain yields a strictly longer string. -/
theorem sjoin_length_lt : (l extra : List String) → l ≠ [] → extra ≠ [] →
    (sjoin l).length < (sjoin (l ++ extra)).length
  | [], _, hl, _ => absurd rfl hl
  | [x], extra, _, he => by
      cases extra with
      | nil => exact absurd rfl he
      | cons y ys =>
          show (sjoin [x]).length < (sjoin (x :: y :: ys)).length
          simp only [sjoin]
          rw [String.length_append, String.length_append]
          have hone : 0 < ("/" : String).length := by decide
          omega
  | x :: y :: rest, extra, _, he => by
      have ih := sjoin_length_lt (y :: rest) extra (by simp) he
      show (sjoin (x :: y :: rest)).length
          < (sjoin ((x :: y :: rest) ++ extra)).length
      rw [show (x :: y :: rest) ++ extra = x :: (y :: (rest ++ extra)) from by simp]
      simp only [sjoin]
      rw [String.length_append, String.length_append,
        String.length_append, String.length_append]
      rw [show (y :: rest) ++ extra = y :: (rest ++ extra) from by simp] at ih
      omega

/-- A path deepened below `pO ++ [tO]` never equals the join of
`pO ++ [tO]` itself. -/
theorem sjoin_deeper_ne (pO : List String) (tO : String) (ext : List String)
    (t : String) :
    sjoin (((pO ++ [tO]) ++ ext) ++ [t]) ≠ sjoin (pO ++ [tO]) := by
  intro he
  have hlt := sjoin_length_lt (pO ++ [tO]) (ext ++ [t]) (by simp) (by simp)
  rw [show (pO ++ [tO]) ++ (ext ++ [t]) = ((pO ++ [tO]) ++ ext) ++ [t] from by simp,
    he] at hlt
  exact lt_irrefl _ hlt

/-- The candidate slot either still holds the tracked outer record `pec` or
holds nothing whose path is the outer path. -/
def candOk (pec : ParsedElement) (pathO : String) (c : Option ParsedElement) : Prop :=
  c = some pec ∨ ∀ pe, c = some pe → pe.path ≠ pathO

mutual

/-- Processing one node's events strictly below the tracked outer element
`pec` (every same-tag element of the node passes both filters): the stack
is restored; the candidate slot stays `candOk`; the slot never returns to
`pec` once lost; every new result's path differs from the outer path; and
if the node contains an element passing both filters, the slot no longer
holds `pec` afterwards. -/
theorem c10Node (q : SearchQuery) (tO : String) (pec : ParsedElement)
    (pO : List String) (hpt : pec.tag = tO)
    (hpp : pec.path = sjoin (pO ++ [tO])) :
    (n : XNode) → tagOk q tO n = true → ∀ (s : SaxState) (ext : List String),
      s.current_path = (pO ++ [tO]) ++ ext →
      candOk pec (sjoin (pO ++ [tO])) s.current_element →
      (saxRun q (nodeEvents n) s).current_path = s.current_path ∧
      candOk pec (sjoin (pO ++ [tO])) (saxRun q (nodeEvents n) s).current_element ∧
      ((saxRun q (nodeEvents n) s).current_element = some pec →
        s.current_element = some pec) ∧
      (∀ pe, pe ∈ (saxRun q (nodeEvents n) s).results →
        pe ∈ s.results ∨ pe.path ≠ sjoin (pO ++ [tO])) ∧
      (hasMatch q n = true → (saxRun q (nodeEvents n) s).current_element ≠ some pec)
  | XNode.text d => fun _ s ext hpath hcand => by
      refine ⟨rfl, hcand, fun h => h, fun pe h => Or.inl h, fun hm => ?_⟩
      simp [hasMatch] at hm
  | XNode.elem t a cs => fun htag s ext hpath hcand => by
      rw [tagOk, Bool.and_eq_true] at htag
      obtain ⟨htagHead, htagF⟩ := htag
      have hrun : saxRun q (nodeEvents (XNode.elem t a cs)) s
          = saxEndElement q
              (saxRun q (forestEvents cs) (saxStartElement q s t a)) t := by
        show saxRun q (SaxEvent.start t a :: forestEvents cs ++ [SaxEvent.endEl t]) s = _
        show saxRun q (forestEvents cs ++ [SaxEvent.endEl t]) (saxStartElement q s t a) = _
        rw [saxRun_append]
        rfl
      set s1 := saxStartElement q s t a with hs1
      have hs1path : s1.current_path = s.current_path ++ [t] := by rw [hs1, saxStart_eq]
      have hs1res : s1.results = s.results := by rw [hs1, saxStart_eq]
      have hnewpath : sjoin (s.current_path ++ [t]) ≠ sjoin (pO ++ [tO]) := by
        rw [hpath]
        exact sjoin_deeper_ne pO tO ext t
      have hs1cand : s1.current_element
          = (if (q.matches_element t && q.matches_attribute a) = true
              then some ⟨t, a, "", sjoin (s.current_path ++ [t])⟩
              else s.current_element) := by
        rw [hs1, saxStart_eq]
      have hcand1 : candOk pec (sjoin (pO ++ [tO])) s1.current_element := by
        rw [hs1cand]
        by_cases hma : (q.matches_element t && q.matches_attribute a) = true
        · rw [if_pos hma]
          right
          intro pe hpe
          injection hpe with hpe
          rw [← hpe]
          exact hnewpath
        · rw [if_neg hma]
          exact hcand
      have hnore1 : s1.current_element = some pec → s.current_element = some pec := by
        rw [hs1cand]
        by_cases hma : (q.matches_element t && q.matches_attribute a) = true
        · rw [if_pos hma]
          intro hpe
          injection hpe with hpe
          exact absurd (congrArg ParsedElement.path hpe)
            (by rw [hpp]; exact hnewpath)
        · rw [if_neg hma]
          exact id
      obtain ⟨fpath, fcand, fnore, fres, fmatch⟩ :=
        c10Forest q tO pec pO hpt hpp cs htagF s1 (ext ++ [t])
          (by rw [hs1path, hpath]; simp) hcand1
      set s2 := saxRun q (forestEvents cs) s1 with hs2
      have hdrop : s2.current_path.dropLast = s.current_path := by
        rw [fpath, hs1path]
        simp
      have hresOf : ∀ pe, pe ∈ s2.results →
          pe ∈ s.results ∨ pe.path ≠ sjoin (pO ++ [tO]) := by
        intro pe h
        rcases fres pe h with h | h
        · rw [hs1res] at h
          exact Or.inl h
        · exact Or.inr h
      rw [hrun]
      cases hce2 : s2.current_element with
      | none =>
          rw [saxEnd_none q s2 t hce2]
          refine ⟨hdrop, Or.inr fun pe h => ?_, fun h => ?_, fun pe h => hresOf pe h,
            fun _ h => ?_⟩
          · have h2 : s2.current_element = some pe := h
            rw [hce2] at h2
            exact Option.noConfusion h2
          · have h2 : s2.current_element = some pec := h
            rw [hce2] at h2
            exact Option.noConfusion h2
          · have h2 : s2.current_element = some pec := h
            rw [hce2] at h2
            exact Option.noConfusion h2
      | some ce =>
          by_cases hct : (ce.tag == t) = true
          · have hcepath : ce.path ≠ sjoin (pO ++ [tO]) := by
              rcases fcand with hfc | hfc
              · rw [hce2] at hfc
                injection hfc with hfc
                subst hfc
                have h1 : s1.current_element = some ce := fnore hce2
                rw [hs1cand] at h1
                by_cases hma : (q.matches_element t && q.matches_attribute a) = true
                · rw [if_pos hma] at h1
                  injection h1 with h1
                  exact absurd (congrArg ParsedElement.path h1)
                    (by rw [hpp]; exact hnewpath)
                · have htt : t = tO := by
                    have h2 := eq_of_beq hct
                    rw [hpt] at h2
                    exact h2.symm
                  subst htt
                  simp at htagHead
                  exact absurd (Bool.and_eq_true _ _ |>.mpr htagHead) hma
              · exact hfc ce hce2
            rw [saxEnd_fin q s2 t ce hce2 hct]
            refine ⟨hdrop, Or.inr fun pe h => Option.noConfusion h,
              fun h => Option.noConfusion h, fun pe h => ?_,
              fun _ h => Option.noConfusion h⟩
            have h3 : pe ∈ (if q.matches_text (pyStrip s2.current_text) = true then s2.results ++ [{ ce with text := pyStrip s2.current_text }] else s2.results) := h
            by_cases hmt : q.matches_text (pyStrip s2.current_text) = true
            · rw [if_pos hmt] at h3
              rcases List.mem_append.mp h3 with h4 | h4
              · exact hresOf pe h4
              · have hpe : pe = { ce with text := pyStrip s2.current_text } := by
                  simpa using h4
                right
                rw [hpe]
                exact hcepath
            · rw [if_neg hmt] at h3
              exact hresOf pe h3
          · have hctf : (ce.tag == t) = false := by
              cases hb : (ce.tag == t)
              · rfl
              · exact absurd hb hct
            rw [saxEnd_keep q s2 t ce hce2 hctf]
            refine ⟨hdrop, fcand, fun h => hnore1 (fnore h), fun pe h => hresOf pe h,
              fun hm h => ?_⟩
            have h2 : s2.current_element = some pec := h
            rw [hasMatch] at hm
            rcases Bool.or_eq_true _ _ |>.mp hm with hm1 | hm1
            · have h1 : s1.current_element = some pec := fnore h2
              rw [hs1cand, if_pos hm1] at h1
              injection h1 with h1
              exact absurd (congrArg ParsedElement.path h1)
                (by rw [hpp]; exact hnewpath)
            · exact fmatch hm1 h2

/-- Forest form of `c10Node`. -/
theorem c10Forest (q : SearchQuery) (tO : String) (pec : ParsedElement)
    (pO : List String) (hpt : pec.tag = tO)
    (hpp : pec.path = sjoin (pO ++ [tO])) :
    (nodes : List XNode) → tagOkF q tO nodes = true →
    ∀ (s : SaxState) (ext : List String),
      s.current_path = (pO ++ [tO]) ++ ext →
      candOk pec (sjoin (pO ++ [tO])) s.current_element →
      (saxRun q (forestEvents nodes) s).current_path = s.current_path ∧
      candOk pec (sjoin (pO ++ [tO])) (saxRun q (forestEvents nodes) s).current_element ∧
      ((saxRun q (forestEvents nodes) s).current_element = some pec →
        s.current_element = some pec) ∧
      (∀ pe, pe ∈ (saxRun q (forestEvents nodes) s).results →
        pe ∈ s.results ∨ pe.path ≠ sjoin (pO ++ [tO])) ∧
      (hasMatchF q nodes = true →
        (saxRun q (forestEvents nodes) s).current_element ≠ some pec)
  | [] => fun _ s ext hpath hcand => by
      refine ⟨rfl, hcand, fun h => h, fun pe h => Or.inl h, fun hm => ?_⟩
      simp [hasMatchF] at hm
  | c :: rest => fun htag s ext hpath hcand => by
      rw [tagOkF, Bool.and_eq_true] at htag
      have hrun : saxRun q (forestEvents (c :: rest)) s
          = saxRun q (forestEvents rest) (saxRun q (nodeEvents c) s) := by
        show saxRun q (nodeEvents c ++ forestEvents rest) s = _
        rw [saxRun_append]
      obtain ⟨fpath1, fcand1, fnore1, fres1, fmatch1⟩ :=
        c10Node q tO pec pO hpt hpp c htag.1 s ext hpath hcand
      obtain ⟨fpath2, fcand2, fnore2, fres2, fmatch2⟩ :=
        c10Forest q tO pec pO hpt hpp rest htag.2 (saxRun q (nodeEvents c) s) ext
          (fpath1.trans hpath) fcand1
      rw [hrun]
      refine ⟨fpath2.trans fpath1, fcand2, fun h => fnore1 (fnore2 h),
        fun pe h => ?_, fun hm => ?_⟩
      · rcases fres2 pe h with h | h
        · exact fres1 pe h
        · exact Or.inr h
      · rw [hasMatchF] at hm
        rcases Bool.or_eq_true _ _ |>.mp hm with hm1 | hm1
        · intro h
          exact fmatch1 hm1 (fnore2 h)
        · exact fmatch2 hm1

end

/-- Document `<b a="1"><b a="2"/><b a="1"/></b>`: the root passes the
filters of the query (element `b`, attribute `a=1`), and so does its second
child, while the first child shares the tag but fails the attribute
filter. -/
def nestDoc : XNode :=
  XNode.elem "b" [("a", "1")]
    [XNode.elem "b" [("a", "2")] [], XNode.elem "b" [("a", "1")] []]

/-- C10 counterexample: in `nestDoc` the outer `b` passes both filters and
strictly contains the second child, which also passes both filters, yet the
outer element IS in the SAX results (appended early by the end-tag of the
filter-failing first child, while the candidate slot still held the outer
record): the first result carries the outer's tag, attributes and root path
`"b"`, which no other element of the document has. -/
theorem c10_counterexample :
    ((⟨"b", some "a", some "1", none⟩ : SearchQuery).matches_element "b"
      && (⟨"b", some "a", some "1", none⟩ : SearchQuery).matches_attribute
          [("a", "1")]) = true ∧
    hasMatchF ⟨"b", some "a", some "1", none⟩
      [XNode.elem "b" [("a", "2")] [], XNode.elem "b" [("a", "1")] []] = true ∧
    saxElems ⟨"b", some "a", some "1", none⟩ nestDoc
      = [⟨"b", [("a", "1")], "", "b"⟩, ⟨"b", [("a", "1")], "", "b/b"⟩] ∧
    (⟨"b", [("a", "1")], "", "b"⟩ : ParsedElement)
      ∈ saxElems ⟨"b", some "a", some "1", none⟩ nestDoc :=
  ⟨by decide, by decide, by decide, by decide⟩

/-- C10 (amended): if every strict descendant of the outer element bearing
the outer's exact tag also passes the element-name and attribute filters,
then the outer element is never included: processing the outer element's
events — from any surrounding stack, buffer, candidate and prior results —
appends no result whose path is the outer element's path (the slot is
overwritten when the passing descendant opens and can never return to the
outer record); in particular, with the outer element as document root, no
result of the SAX parse carries the root's path. -/
theorem c10_sax_innermost_amended (q : SearchQuery) (tO : String)
    (aO : List (String × String)) (cs : List XNode)
    (houter : (q.matches_element tO && q.matches_attribute aO) = true)
    (hdesc : hasMatchF q cs = true)
    (htags : tagOkF q tO cs = true) :
    (∀ (p : List String) (b : String) (cand0 : Option ParsedElement)
        (res : List ParsedElement) (pe : ParsedElement),
      pe ∈ (saxRun q (nodeEvents (XNode.elem tO aO cs)) ⟨p, b, cand0, res⟩).results →
      pe ∈ res ∨ pe.path ≠ sjoin (p ++ [tO])) ∧
    (∀ pe, pe ∈ saxElems q (XNode.elem tO aO cs) → pe.path ≠ tO) := by
  have main : ∀ (p : List String) (b : String) (cand0 : Option ParsedElement)
      (res : List ParsedElement) (pe : ParsedElement),
      pe ∈ (saxRun q (nodeEvents (XNode.elem tO aO cs)) ⟨p, b, cand0, res⟩).results →
      pe ∈ res ∨ pe.path ≠ sjoin (p ++ [tO]) := by
    intro p b cand0 res pe hpe
    have hrun : saxRun q (nodeEvents (XNode.elem tO aO cs)) ⟨p, b, cand0, res⟩
        = saxEndElement q
            (saxRun q (forestEvents cs)
              (saxStartElement q ⟨p, b, cand0, res⟩ tO aO)) tO := by
      show saxRun q (SaxEvent.start tO aO :: forestEvents cs ++ [SaxEvent.endEl tO])
          ⟨p, b, cand0, res⟩ = _
      show saxRun q (forestEvents cs ++ [SaxEvent.endEl tO])
          (saxStartElement q ⟨p, b, cand0, res⟩ tO aO) = _
      rw [saxRun_append]
      rfl
    set pec : ParsedElement := ⟨tO, aO, "", sjoin (p ++ [tO])⟩ with hpec
    set s1 := saxStartElement q ⟨p, b, cand0, res⟩ tO aO with hs1
    have hs1path : s1.current_path = (p ++ [tO]) ++ [] := by
      rw [hs1, saxStart_eq]
      simp
    have hs1res : s1.results = res := by rw [hs1, saxStart_eq]
    have hs1cand : s1.current_element = some pec := by
      rw [hs1, saxStart_eq]
      simp only [if_pos houter, hpec]
    obtain ⟨fpath, fcand, fnore, fres, fmatch⟩ :=
      c10Forest q tO pec p rfl rfl cs htags s1 [] hs1path (Or.inl hs1cand)
    set s2 := saxRun q (forestEvents cs) s1 with hs2
    rw [hrun] at hpe
    have hresOf : ∀ x, x ∈ s2.results → x ∈ res ∨ x.path ≠ sjoin (p ++ [tO]) := by
      intro x hx
      rcases fres x hx with hx | hx
      · rw [hs1res] at hx
        exact Or.inl hx
      · exact Or.inr hx
    cases hce2 : s2.current_element with
    | none =>
        rw [saxEnd_none q s2 tO hce2] at hpe
        exact hresOf pe hpe
    | some ce =>
        have hcene : ce ≠ pec := by
          intro he
          exact fmatch hdesc (by rw [hce2, he])
        have hcepath : ce.path ≠ sjoin (p ++ [tO]) := by
          rcases fcand with hfc | hfc
          · rw [hce2] at hfc
            injection hfc with hfc
            exact absurd hfc hcene
          · exact hfc ce hce2
        by_cases hct : (ce.tag == tO) = true
        · rw [saxEnd_fin q s2 tO ce hce2 hct] at hpe
          have h3 : pe ∈ (if q.matches_text (pyStrip s2.current_text) = true then s2.results ++ [{ ce with text := pyStrip s2.current_text }] else s2.results) := hpe
          by_cases hmt : q.matches_text (pyStrip s2.current_text) = true
          · rw [if_pos hmt] at h3
            rcases List.mem_append.mp h3 with h4 | h4
            · exact hresOf pe h4
            · have hpe2 : pe = { ce with text := pyStrip s2.current_text } := by
                simpa using h4
              right
              rw [hpe2]
              exact hcepath
          · rw [if_neg hmt] at h3
            exact hresOf pe h3
        · have hctf : (ce.tag == tO) = false := by
            cases hb : (ce.tag == tO)
            · rfl
            · exact absurd hb hct
          rw [saxEnd_keep q s2 tO ce hce2 hctf] at hpe
          exact hresOf pe hpe
  refine ⟨main, fun pe hpe => ?_⟩
  rcases main [] "" none [] pe hpe with h | h
  · simp at h
  · simpa using h

/-- C10 witness: the amended statement applied at a concrete query and
document `<b a="1"><b a="1"/></b>` where the only same-tag descendant
passes both filters: the single result is the inner element and no result
carries the root's path. -/
theorem c10_witness :
    (⟨"b", [("a", "1")], "", "b/b"⟩ : ParsedElement).path ≠ "b" :=
  (c10_sax_innermost_amended ⟨"b", some "a", some "1", none⟩ "b" [("a", "1")]
      [XNode.elem "b" [("a", "1")] []] (by decide) (by decide) (by decide)).2
    ⟨"b", [("a", "1")], "", "b/b"⟩ (by decide)

end XmlParser
